import Mathlib

/-!
# A verification development for `hashtable.c`

The open-addressing hash table of `src/hashtable/hashtable.c` is embedded as
pure functions over an explicit table value.

Conventions of the embedding.

* A region of memory reached through a pointer is a list of bytes
  (`Bytes`); what lies behind the bytes that were written reads as zero, so
  every region is a terminated C string.  The bytes in front of the first
  zero byte are `cstr`.
* A buffer obtained from `malloc` is given by the bytes the code writes at
  its pointer (writes are not cut at the requested size).  The sizes the
  code requests are `key_malloc_size`, `value_malloc_size` and
  `update_malloc_size`.  Where the code writes more bytes than it requested,
  the bytes beyond the requested size lie outside the buffer: the functions
  below carry them along, and what the program finds there later is not
  determined by the source.  Statements about what the program reads back
  are made for calls that stay inside their buffers, or for the bytes inside
  a buffer.  `malloc` succeeds, except for a size that comes from a negative
  `int` (such a request is larger than any object, and the result is `NULL`).
* `int` is four bytes, little endian, two's complement; `size_t` is 64 bits.
* A function that may fail to return (the probe loop on a table without a
  free slot, a write through `NULL`, a copy of a length that came from a
  negative `int`) returns `Option`; `none` is "does not return".
* `INT_INPUT` is declared in `hashtable.h`, which is not part of the sources
  at hand; every function that reads it takes it as its first argument.
* `calloc` in `ht_expand` may fail; whether it succeeds is an argument of
  `ht_expand` and `ht_set`.
-/

namespace HashTable

/-- The bytes found at a pointer; behind them memory reads as zero. -/
abbrev Bytes := List Nat

/-- The C string at a pointer: the bytes in front of the first zero byte. -/
def cstr : Bytes → Bytes
  | [] => []
  | b :: p => if b = 0 then [] else b :: cstr p

/-- The function `strlen`. -/
def strlen (s : Bytes) : Nat := (cstr s).length

/-- The function `strcmp`: the difference of the first pair of bytes that differ, zero
when the two strings are equal. -/
def strcmp : Bytes → Bytes → Int
  | [], [] => 0
  | [], b :: _ => if b = 0 then 0 else -(b : Int)
  | a :: _, [] => if a = 0 then 0 else (a : Int)
  | a :: p, b :: q =>
    if a ≠ b then (a : Int) - (b : Int)
    else if a = 0 then 0
    else strcmp p q

/-- What `strcpy(dst, src)` writes to `dst`: the string and its terminator. -/
def strcpy (src : Bytes) : Bytes := cstr src ++ [0]

/-- What `strncpy(dst, src, n)` writes to `dst`: the first `n` bytes of the
string, filled up with zero bytes to `n` bytes. -/
def strncpy (src : Bytes) (n : Nat) : Bytes :=
  (cstr src).take n ++ List.replicate (n - strlen src) 0

/-- What `strdup(key)` returns: a copy of the string and its terminator. -/
def strdup (s : Bytes) : Bytes := cstr s ++ [0]

/-- The byte `p[i]`. -/
def byte_at (p : Bytes) (i : Nat) : Nat := p.getD i 0

/-- The value of `*(int *)p`: four bytes, little endian, two's complement. -/
def load_int (p : Bytes) : Int :=
  let u := byte_at p 0 % 256 + 256 * (byte_at p 1 % 256) + 65536 * (byte_at p 2 % 256)
    + 16777216 * (byte_at p 3 % 256)
  if u < 2147483648 then (u : Int) else (u : Int) - 4294967296

/-- The four bytes `*(int *)p = n` writes (the value wraps to 32 bits). -/
def store_int (n : Int) : Bytes :=
  let u := (n % 4294967296).toNat
  [u % 256, u / 256 % 256, u / 65536 % 256, u / 16777216 % 256]

/-- One slot of the table, `ht_entry`: a key pointer and a value pointer, each
`NULL` (`none`) or the bytes it points to. -/
structure ht_entry where
  key : Option Bytes
  value : Option Bytes
  deriving DecidableEq

/-- A slot as `calloc` leaves it. -/
def ht_entry.null : ht_entry := ⟨none, none⟩

/-- The table, `hashtable`. -/
structure hashtable where
  entries : List ht_entry
  capacity : Nat
  length : Nat
  deriving DecidableEq

/-- The slot `entries[i]`. -/
def slot (entries : List ht_entry) (i : Nat) : ht_entry := entries.getD i ht_entry.null

def INITIAL_CAPACITY : Nat := 1000

/-- The function `hashtable_create`, both allocations succeeding. -/
def hashtable_create : hashtable :=
  { entries := List.replicate INITIAL_CAPACITY ht_entry.null
    capacity := INITIAL_CAPACITY
    length := 0 }

def FNV_OFFSET : Nat := 14695981039346656037

def FNV_PRIME : Nat := 1099511628211

/-- The loop of `hash_key`, from the pointer `p` and the hash so far. -/
def hash_loop : Bytes → Nat → Nat
  | [], hash => hash
  | b :: p, hash =>
    if b = 0 then hash
    else hash_loop p (((hash ^^^ (b % 256)) * FNV_PRIME) % 18446744073709551616)

/-- The function `hash_key`. -/
def hash_key (key : Bytes) : Nat := hash_loop key FNV_OFFSET

/-- The start of a probe, `(size_t)(hash & (uint64_t)(capacity - 1))`. -/
def start_index (capacity : Nat) (key : Bytes) : Nat :=
  hash_key key &&& ((capacity + 18446744073709551615) % 18446744073709551616)

/-- The `while` loop that `ht_get` and `ht_set_entry` share, run for at most
`fuel` slots from `index`: `some (i, true)` when it stops at slot `i` on an
equal key, `some (i, false)` when it stops at the empty slot `i`. -/
def probe (entries : List ht_entry) (capacity : Nat) (key : Bytes) : Nat → Nat → Option (Nat × Bool)
  | 0, _ => none
  | fuel + 1, index =>
    match (slot entries index).key with
    | none => some (index, false)
    | some k =>
      if strcmp key k = 0 then some (index, true)
      else probe entries capacity key fuel (if index + 1 ≥ capacity then 0 else index + 1)

/-- The function `ht_get`; the inner `none` is the `NULL` result. The loop passes over
each slot at most once before it repeats itself, so `capacity` steps decide
whether it stops. -/
def ht_get (t : hashtable) (key : Bytes) : Option (Option Bytes) :=
  match probe t.entries t.capacity key t.capacity (start_index t.capacity key) with
  | none => none
  | some (index, true) => some (slot t.entries index).value
  | some (_, false) => some none

/-- The bytes that `ht_set_entry` writes at the key pointer of a new slot: with
`lenvariable == 0` the string and its terminator, copied by `strcpy` (the buffer
requested has `strlen(key)` bytes, so the terminator is written one past it);
otherwise the first `input_type` bytes `key[0]`, ..., without a terminator of their
own, and `NULL` when `input_type` is negative (`malloc` fails and the loop does not
run). -/
def stored_key (key : Bytes) (input_type lenvariable : Int) : Option Bytes :=
  if lenvariable = 0 then some (strcpy key)
  else if input_type < 0 then none
  else some ((List.range input_type.toNat).map (byte_at key))

/-- The value that `ht_set_entry` stores in a new slot; `none` when the copy
does not return. -/
def stored_value (INT_INPUT : Int) (value : Bytes) (input_type lenvariable : Int) :
    Option Bytes :=
  if input_type = INT_INPUT then some (store_int (load_int value))
  else if lenvariable = 0 then
    if input_type < 0 then none else some (strncpy value input_type.toNat)
  else some (strcpy value)

/-- The bytes that `ht_set_entry` leaves at the value pointer of a slot whose key is
equal; `none` when the update does not return. A Bytes call writes them to a new
buffer requested with `strlen(value)` bytes (`update_malloc_size`): with
`lenvariable == 0` it writes `input_type` bytes, which lie inside that buffer only
when `input_type <= strlen(value)`. -/
def updated_value (INT_INPUT : Int) (old : Option Bytes) (value : Bytes)
    (input_type lenvariable : Int) : Option Bytes :=
  if input_type = INT_INPUT then
    match old with
    | none => none
    | some o => some (store_int (load_int o + load_int value) ++ o.drop 4)
  else if lenvariable = 0 then
    if input_type < 0 then none else some (strncpy value input_type.toNat)
  else some (strcpy value)

/-- The key `ht_set_entry` copies into a new slot: its own `strdup` copy of the
key when `plength` is not `NULL`, the caller's key otherwise. -/
def owned_key (plength : Option Nat) (key : Bytes) : Bytes :=
  match plength with
  | none => key
  | some _ => strdup key

/-- The function `ht_set_entry`: the array and `*plength` afterwards (`plength` is `none` for
a `NULL` pointer). -/
def ht_set_entry (INT_INPUT : Int) (entries : List ht_entry) (capacity : Nat) (key value : Bytes)
    (plength : Option Nat) (input_type lenvariable : Int) :
    Option (List ht_entry × Option Nat) :=
  match probe entries capacity key capacity (start_index capacity key) with
  | none => none
  | some (index, true) =>
    match updated_value INT_INPUT (slot entries index).value value input_type lenvariable with
    | none => none
    | some v => some (entries.set index { key := (slot entries index).key, value := some v },
        plength)
  | some (index, false) =>
    match stored_value INT_INPUT value input_type lenvariable with
    | none => none
    | some v => some (entries.set index
        { key := stored_key (owned_key plength key) input_type lenvariable, value := some v },
        plength.map (· + 1))

/-- The `for` loop of `ht_expand`, from slot `i` of the old array, `n` slots
to go. -/
def expand_loop (INT_INPUT : Int) (old : List ht_entry) (new_capacity : Nat)
    (input_type lenvariable : Int) : Nat → Nat → List ht_entry → Option (List ht_entry)
  | 0, _, new_entries => some new_entries
  | n + 1, i, new_entries =>
    match (slot old i).key with
    | none => expand_loop INT_INPUT old new_capacity input_type lenvariable n (i + 1) new_entries
    | some k =>
      match (slot old i).value with
      | none => none
      | some v =>
        match ht_set_entry INT_INPUT new_entries new_capacity k v none input_type lenvariable with
        | none => none
        | some (e, _) =>
          expand_loop INT_INPUT old new_capacity input_type lenvariable n (i + 1) e

/-- The function `ht_expand`: its result and the table afterwards. -/
def ht_expand (INT_INPUT : Int) (t : hashtable) (input_type lenvariable : Int)
    (calloc_ok : Bool) : Option (Bool × hashtable) :=
  let new_capacity := (t.capacity * 2) % 18446744073709551616
  if new_capacity < t.capacity then some (false, t)
  else if calloc_ok = false then some (false, t)
  else
    match expand_loop INT_INPUT t.entries new_capacity input_type lenvariable t.capacity 0
        (List.replicate new_capacity ht_entry.null) with
    | none => none
    | some e => some (true, { entries := e, capacity := new_capacity, length := t.length })

/-- The call of `ht_set_entry` that ends `ht_set`. -/
def ht_set_write (INT_INPUT : Int) (t : hashtable) (key value : Bytes)
    (input_type lenvariable : Int) : Option hashtable :=
  match ht_set_entry INT_INPUT t.entries t.capacity key value (some t.length) input_type
      lenvariable with
  | none => none
  | some (e, plength) => some { entries := e, capacity := t.capacity, length := plength.getD t.length }

/-- The function `ht_set`; `value` is `none` for a `NULL` pointer (the call returns at
once when `assert` is compiled out). -/
def ht_set (INT_INPUT : Int) (t : hashtable) (key : Bytes) (value : Option Bytes)
    (input_type lenvariable : Int) (calloc_ok : Bool) : Option hashtable :=
  match value with
  | none => some t
  | some v =>
    if t.length ≥ t.capacity / 2 then
      match ht_expand INT_INPUT t input_type lenvariable calloc_ok with
      | none => none
      | some (false, _) => some t
      | some (true, t1) => ht_set_write INT_INPUT t1 key v input_type lenvariable
    else ht_set_write INT_INPUT t key v input_type lenvariable

/-- The function `ht_length`. -/
def ht_length (t : hashtable) : Nat := t.length


/-- The iterator, `hti`, without its pointer to the table: the table it points to is
handed to `ht_next` with it. -/
structure hti where
  _index : Nat
  key : Option Bytes
  value : Option Bytes
  deriving DecidableEq

/-- The function `ht_iterator`. -/
def ht_iterator : hti := { _index := 0, key := none, value := none }

/-- The `while` loop of `ht_next`, run for at most `fuel` slots. -/
def ht_next_loop (t : hashtable) : Nat → hti → Bool × hti
  | 0, it => (false, it)
  | fuel + 1, it =>
    if it._index < t.capacity then
      let i := it._index
      let it1 : hti := { it with _index := it._index + 1 }
      if (slot t.entries i).key ≠ none then
        (true, { it1 with key := (slot t.entries i).key, value := (slot t.entries i).value })
      else ht_next_loop t fuel it1
    else (false, it)

/-- The function `ht_next` on the table the iterator points to: its result and the
iterator afterwards. The loop passes over at most `capacity - _index` slots, so
that many steps run it to its end. -/
def ht_next (t : hashtable) (it : hti) : Bool × hti :=
  ht_next_loop t (t.capacity - it._index) it

/-! ## Notions the statements use -/

/-- The number of slots whose key is not `NULL`. -/
def occupied (E : List ht_entry) : Nat := E.countP (fun e => e.key.isSome)

/-- The copy of the value returns: the length handed to `strncpy` does not come
from a negative `int`. -/
def copy_ok (INT_INPUT input_type lenvariable : Int) : Prop :=
  input_type = INT_INPUT ∨ lenvariable ≠ 0 ∨ 0 ≤ input_type

/-- Every slot that has a key has a value. -/
def has_values (E : List ht_entry) : Prop :=
  ∀ i k, (slot E i).key = some k → (slot E i).value ≠ none

/-- What holds of every table that `ht_set` calls lead to. -/
structure table_ok (t : hashtable) : Prop where
  len : t.entries.length = t.capacity
  cap : ∃ j, t.capacity = 1000 * 2 ^ j
  cap_lt : t.capacity < 18446744073709551616
  occ : occupied t.entries ≤ t.length
  load : t.length ≤ t.capacity / 2
  vals : has_values t.entries

/-- The table the final `ht_set_entry` of `ht_set` writes to: the table itself below
half load, the table `ht_expand` returns otherwise. -/
def grows_to (INT_INPUT : Int) (t : hashtable) (input_type lenvariable : Int) (calloc_ok : Bool)
    (tg : hashtable) : Prop :=
  (t.length < t.capacity / 2 ∧ tg = t)
    ∨ (t.capacity / 2 ≤ t.length
      ∧ ht_expand INT_INPUT t input_type lenvariable calloc_ok = some (true, tg))

/-- Growth, when it is needed, succeeds: `calloc` returns an array and the doubled
capacity fits `size_t`. -/
def growth_ok (t : hashtable) (calloc_ok : Bool) : Prop :=
  t.length < t.capacity / 2 ∨ (calloc_ok = true ∧ 2 * t.capacity < 18446744073709551616)

/-- The tables that calls of `ht_set` that return lead to from the table of
`hashtable_create`. -/
inductive reachable (INT_INPUT : Int) : hashtable → Prop
  | create : reachable INT_INPUT hashtable_create
  | set {t t' : hashtable} (key : Bytes) (value : Option Bytes) (input_type lenvariable : Int)
      (calloc_ok : Bool) :
      reachable INT_INPUT t →
      ht_set INT_INPUT t key value input_type lenvariable calloc_ok = some t' →
      reachable INT_INPUT t'


/-- The key of a call is stored in full: it is copied by `strcpy`, or the number of
bytes copied is at least its length. -/
def key_full (key : Bytes) (input_type lenvariable : Int) : Prop :=
  lenvariable = 0 ∨ (strlen key : Int) ≤ input_type

/-- Every key in the array is in the slot where the probe for it stops. -/
def findable (E : List ht_entry) (c : Nat) : Prop :=
  ∀ p k, (slot E p).key = some k → probe E c k c (start_index c k) = some (p, true)

/-- What holds of every table that `ht_set` calls with `lenvariable == 0` lead
to. -/
structure table_clean (t : hashtable) : Prop where
  ok : table_ok t
  find : findable t.entries t.capacity
  count : occupied t.entries = t.length

/-- The tables that calls of `ht_set` with `lenvariable == 0` that return lead to
from the table of `hashtable_create`. -/
inductive reachable0 (INT_INPUT : Int) : hashtable → Prop
  | create : reachable0 INT_INPUT hashtable_create
  | set {t t' : hashtable} (key : Bytes) (value : Option Bytes) (input_type : Int)
      (calloc_ok : Bool) :
      reachable0 INT_INPUT t →
      ht_set INT_INPUT t key value input_type 0 calloc_ok = some t' →
      reachable0 INT_INPUT t'

/-- What holds of the new array in `ht_expand` (called with `lenvariable == 0`) when
the loop has reached slot `i` of the old array. -/
structure rehash_inv (INT_INPUT : Int) (old : List ht_entry) (c2 : Nat) (input_type : Int)
    (i : Nat) (e : List ht_entry) : Prop where
  len : e.length = c2
  vals : has_values e
  find : findable e c2
  count : occupied e + occupied (old.drop i) = occupied old
  keys : ∀ q k, (slot e q).key = some k →
    ∃ j k', j < i ∧ (slot old j).key = some k' ∧ cstr k' = cstr k
  gets : ∀ j k' v', j < i → (slot old j).key = some k' → (slot old j).value = some v' →
    ∃ q w, probe e c2 k' c2 (start_index c2 k') = some (q, true)
      ∧ (slot e q).value = some w ∧ stored_value INT_INPUT v' input_type 0 = some w

/-- The arguments of one call of `ht_set` with a value that is not `NULL`. -/
structure call where
  key : Bytes
  value : Bytes
  input_type : Int
  lenvariable : Int
  calloc_ok : Bool

/-- A sequence of calls of `ht_set`, one after the other, from the table `t`;
`none` when one of them does not return. -/
def run (INT_INPUT : Int) : List call → hashtable → Option hashtable
  | [], t => some t
  | c :: cs, t =>
    match ht_set INT_INPUT t c.key (some c.value) c.input_type c.lenvariable c.calloc_ok with
    | none => none
    | some t1 => run INT_INPUT cs t1

/-- The table after `ht_set(&t, "a", &five, INT_INPUT, 0)` on a new table, with
`INT_INPUT` taken to be `0`. -/
def table_a : hashtable :=
  (ht_set 0 hashtable_create [97] (some [5, 0, 0, 0]) 0 0 true).getD hashtable_create

/-- The key of call number `i` of the sequences `fill`: two bytes, none of them
zero, different for different `i`. -/
def key_of (i : Nat) : Bytes := [1 + i % 250, 1 + i / 250]

/-- A sequence of `n` calls `ht_set(key_of i, value, input_type, 0)` whose growths
succeed. -/
def fill (value : Bytes) (input_type : Int) (n : Nat) : List call :=
  (List.range n).map (fun i => ⟨key_of i, value, input_type, 0, true⟩)

/-- The indices of the occupied slots of the table, in increasing order. -/
def occupied_slots (t : hashtable) : List Nat :=
  (List.range t.capacity).filter (fun i => (slot t.entries i).key.isSome)

/-- The result of call number `n` (counted from 0) in a row of calls of `ht_next` that
starts with the iterator `it`, and the iterator after that call. -/
def ht_next_nth (t : hashtable) : Nat → hti → Bool × hti
  | 0, it => ht_next t it
  | n + 1, it => ht_next_nth t n (ht_next t it).2

/-- FNV-1a in 64 bits as the specification words it: start from the offset basis and,
for each byte of the key, xor the byte in and then multiply by the prime. -/
def fnv1a (key : Bytes) : Nat :=
  key.foldl (fun h b => ((h ^^^ b) * 1099511628211) % 18446744073709551616)
    14695981039346656037

/-- A table of two slots at half load: the key `"a"` with the value `"x"` in slot 0. -/
def table_half : hashtable :=
  { entries := [⟨some [97, 0], some [120, 0]⟩, ⟨none, none⟩], capacity := 2, length := 1 }

/-- The slots that the loop of `probe` reads, in the order it reads them. -/
def probe_visits (entries : List ht_entry) (capacity : Nat) (key : Bytes) : Nat → Nat → List Nat
  | 0, _ => []
  | fuel + 1, index =>
    index :: (match (slot entries index).key with
      | none => []
      | some k =>
        if strcmp key k = 0 then []
        else probe_visits entries capacity key fuel
          (if index + 1 ≥ capacity then 0 else index + 1))

/-- The abstract counter map of the specification, after the calls `cs` (key and
integer of each call, in order): the sum of the integers written for the key `k`.
Keys are C strings: two keys are the same when their strings are. -/
def counter_map_sum (cs : List (Bytes × Int)) (k : Bytes) : Int :=
  ((cs.filter (fun c => decide (cstr c.1 = cstr k))).map (fun c => c.2)).sum

/-- The abstract counter map: whether a call of `cs` was for the key `k`. -/
def counter_map_mem (cs : List (Bytes × Int)) (k : Bytes) : Bool :=
  cs.any (fun c => decide (cstr c.1 = cstr k))

/-- The abstract counter map: what a lookup of `k` yields, the sum for the key when
a call was for it, nothing (`none`, for `NULL`) otherwise. -/
def counter_map_get (cs : List (Bytes × Int)) (k : Bytes) : Option Int :=
  if counter_map_mem cs k then some (counter_map_sum cs k) else none

/-- The abstract counter map: the number of distinct keys in `cs`. -/
def counter_map_length (cs : List (Bytes × Int)) : Nat :=
  ((cs.map (fun c => cstr c.1)).dedup).length

/-- The Counter calls of `ht_set` with `lenvariable == 0` for the keys and integers
`cs`, `calloc` succeeding in each. -/
def counter_calls (INT_INPUT : Int) (cs : List (Bytes × Int)) : List call :=
  cs.map (fun c => ⟨c.1, store_int c.2, INT_INPUT, 0, true⟩)

/-- The number of bytes `ht_set_entry` requests from `malloc` for the key of a new slot:
`strlen(key)` with `lenvariable == 0` (line 177), `input_type` otherwise (line 185). -/
def key_malloc_size (key : Bytes) (input_type lenvariable : Int) : Int :=
  if lenvariable = 0 then (strlen key : Int) else input_type

/-- The number of bytes it then writes at the key pointer: `strcpy` writes the string
and its terminator (line 178); the loop writes `input_type` bytes (lines 186-190),
none when `input_type` is negative. -/
def key_write_size (key : Bytes) (input_type lenvariable : Int) : Int :=
  if lenvariable = 0 then (strlen key : Int) + 1 else max input_type 0

/-- The number of bytes `ht_set_entry` requests for the value of a new slot:
`sizeof(int)` for a Counter call (line 197), `input_type` for a Bytes call with
`lenvariable == 0` (line 207), `strlen(value)` otherwise (line 214). -/
def value_malloc_size (INT_INPUT : Int) (value : Bytes) (input_type lenvariable : Int) : Int :=
  if input_type = INT_INPUT then 4
  else if lenvariable = 0 then input_type else (strlen value : Int)

/-- The number of bytes a Bytes call requests for the new value of a slot whose key is
equal (line 143): `strlen(value)`, whatever `input_type` and `lenvariable` are. -/
def update_malloc_size (value : Bytes) : Int := (strlen value : Int)

/-- The number of bytes a Bytes call then writes at the value pointer: `strncpy` writes
`input_type` bytes (line 147), `strcpy` the string and its terminator (line 152). -/
def update_write_size (value : Bytes) (input_type lenvariable : Int) : Int :=
  if lenvariable = 0 then input_type else (strlen value : Int) + 1

/-- A key of 24 bytes, 24 times the letter `a`. -/
def key_24 : Bytes := List.replicate 24 97

/-! # Theorems -/

/-! ## Strings -/

theorem cstr_ne_zero (s : Bytes) : ∀ b ∈ cstr s, b ≠ 0 := by
  induction s with
  | nil => simp [cstr]
  | cons a p ih =>
    unfold cstr
    split
    · simp
    · intro b hb
      rcases List.mem_cons.1 hb with h | h
      · subst h; assumption
      · exact ih b h

theorem cstr_of_ne_zero (s : Bytes) (h : ∀ b ∈ s, b ≠ 0) : cstr s = s := by
  induction s with
  | nil => rfl
  | cons a p ih =>
    have ha : a ≠ 0 := h a (List.mem_cons_self _ _)
    have hp : ∀ b ∈ p, b ≠ 0 := fun b hb => h b (List.mem_cons_of_mem _ hb)
    simp [cstr, ha, ih hp]

theorem cstr_cstr (s : Bytes) : cstr (cstr s) = cstr s :=
  cstr_of_ne_zero _ (cstr_ne_zero s)

theorem cstr_append_zero (s r : Bytes) : cstr (cstr s ++ 0 :: r) = cstr s := by
  induction s with
  | nil => simp [cstr]
  | cons a p ih =>
    by_cases ha : a = 0
    · simp [cstr, ha]
    · simp [cstr, ha, ih]

theorem cstr_strcpy (s : Bytes) : cstr (strcpy s) = cstr s := cstr_append_zero s []

theorem cstr_strdup (s : Bytes) : cstr (strdup s) = cstr s := cstr_append_zero s []

theorem strcmp_eq_zero_iff (a b : Bytes) : strcmp a b = 0 ↔ cstr a = cstr b := by
  induction a generalizing b with
  | nil =>
    cases b with
    | nil => simp [strcmp, cstr]
    | cons y q =>
      by_cases hy : y = 0
      · simp [strcmp, cstr, hy]
      · simp [strcmp, cstr, hy]
  | cons x p ih =>
    cases b with
    | nil =>
      by_cases hx : x = 0
      · simp [strcmp, cstr, hx]
      · simp [strcmp, cstr, hx]
    | cons y q =>
      by_cases hxy : x = y
      · subst hxy
        by_cases hx : x = 0
        · simp [strcmp, cstr, hx]
        · simp [strcmp, cstr, hx, ih]
      · have h1 : (x : Int) - (y : Int) ≠ 0 := by omega
        by_cases hx : x = 0
        · have hy : y ≠ 0 := fun h => hxy (by omega)
          simp [strcmp, cstr, hx, hy, hxy]
          omega
        · by_cases hy : y = 0
          · simp [strcmp, cstr, hx, hy]
          · simp [strcmp, cstr, hx, hy, hxy, h1]

theorem hash_loop_cstr (s : Bytes) (h : Nat) : hash_loop (cstr s) h = hash_loop s h := by
  induction s generalizing h with
  | nil => rfl
  | cons a p ih =>
    by_cases ha : a = 0
    · simp [cstr, hash_loop, ha]
    · simp [cstr, hash_loop, ha, ih]

theorem start_index_congr (c : Nat) {a b : Bytes} (h : cstr a = cstr b) :
    start_index c a = start_index c b := by
  unfold start_index hash_key
  rw [← hash_loop_cstr a, ← hash_loop_cstr b, h]

theorem start_index_lt (c : Nat) (key : Bytes) (hc : 0 < c) (hc2 : c < 18446744073709551616) :
    start_index c key < c := by
  unfold start_index
  have h1 : (c + 18446744073709551615) % 18446744073709551616 = c - 1 := by omega
  rw [h1]
  have := @Nat.and_le_right (hash_key key) (c - 1)
  omega

theorem cstr_copy_key (key : Bytes) (n : Nat) (h : strlen key ≤ n) :
    cstr ((List.range n).map (byte_at key)) = cstr key := by
  induction key generalizing n with
  | nil =>
    cases n with
    | zero => rfl
    | succ m => simp [List.range_succ_eq_map, cstr, byte_at]
  | cons a p ih =>
    by_cases ha : a = 0
    · cases n with
      | zero => simp [cstr, ha]
      | succ m => simp [List.range_succ_eq_map, cstr, byte_at, ha]
    · cases n with
      | zero => simp [strlen, cstr, ha] at h
      | succ m =>
        have hp : strlen p ≤ m := by
          simp [strlen, cstr, ha] at h
          exact h
        have := ih m hp
        simp only [List.range_succ_eq_map, List.map_cons, List.map_map]
        have e : (byte_at (a :: p) ∘ Nat.succ) = byte_at p := by
          funext i; simp [byte_at]
        rw [e]
        simp [cstr, byte_at, ha, this]

/-! ## Slots and the probe loop -/

theorem slot_set (E : List ht_entry) (p i : Nat) (e : ht_entry) :
    slot (E.set p e) i = if i = p ∧ p < E.length then e else slot E i := by
  unfold slot
  rw [List.getD_eq_getElem?_getD, List.getD_eq_getElem?_getD, List.getElem?_set]
  by_cases h : p = i
  · subst h
    by_cases h2 : p < E.length
    · simp [h2]
    · rw [List.getElem?_eq_none (by omega)]
      simp [h2]
  · have h' : ¬ (i = p) := fun e => h e.symm
    simp [h, h']

theorem slot_set_ne (E : List ht_entry) {p i : Nat} (e : ht_entry) (h : i ≠ p) :
    slot (E.set p e) i = slot E i := by
  rw [slot_set]; simp [h]

theorem slot_set_self (E : List ht_entry) {p : Nat} (e : ht_entry) (h : p < E.length) :
    slot (E.set p e) p = e := by
  rw [slot_set]; simp [h]

theorem probe_lt (E : List ht_entry) (c : Nat) (key : Bytes) (hc : 0 < c) :
    ∀ (f s p : Nat) (b : Bool), s < c → probe E c key f s = some (p, b) → p < c := by
  intro f
  induction f with
  | zero => intro s p b _ h; simp [probe] at h
  | succ f ih =>
    intro s p b hs h
    unfold probe at h
    split at h
    · simp at h; omega
    · split at h
      · simp at h; omega
      · refine ih _ p b ?_ h
        split <;> omega

theorem probe_found (E : List ht_entry) (c : Nat) (key : Bytes) :
    ∀ (f s p : Nat), probe E c key f s = some (p, true) →
      ∃ k, (slot E p).key = some k ∧ cstr key = cstr k := by
  intro f
  induction f with
  | zero => intro s p h; simp [probe] at h
  | succ f ih =>
    intro s p h
    unfold probe at h
    split at h
    · simp at h
    · rename_i k hk
      split at h
      · rename_i hm
        simp at h
        subst h
        exact ⟨k, hk, (strcmp_eq_zero_iff _ _).1 hm⟩
      · exact ih _ p h

theorem probe_empty (E : List ht_entry) (c : Nat) (key : Bytes) :
    ∀ (f s p : Nat), probe E c key f s = some (p, false) → (slot E p).key = none := by
  intro f
  induction f with
  | zero => intro s p h; simp [probe] at h
  | succ f ih =>
    intro s p h
    unfold probe at h
    split at h
    · rename_i hk
      simp at h
      subst h
      exact hk
    · split at h
      · simp at h
      · exact ih _ p h

theorem probe_key_congr (E : List ht_entry) (c : Nat) {a b : Bytes} (h : cstr a = cstr b) :
    ∀ (f s : Nat), probe E c a f s = probe E c b f s := by
  intro f
  induction f with
  | zero => intro s; rfl
  | succ f ih =>
    intro s
    unfold probe
    split
    · rfl
    · rename_i k hk
      have e : (strcmp a k = 0) = (strcmp b k = 0) := by
        rw [strcmp_eq_zero_iff, strcmp_eq_zero_iff, h]
      simp only [e, ih]

theorem probe_slots_congr (E E' : List ht_entry) (c : Nat) (key : Bytes)
    (h : ∀ i, (slot E' i).key = (slot E i).key) :
    ∀ (f s : Nat), probe E' c key f s = probe E c key f s := by
  intro f
  induction f with
  | zero => intro s; rfl
  | succ f ih =>
    intro s
    unfold probe
    rw [h s]
    split
    · rfl
    · simp only [ih]

theorem probe_insert_self (E : List ht_entry) (c : Nat) (key k' : Bytes) (v : Option Bytes)
    (hk : cstr key = cstr k') :
    ∀ (f s p : Nat), p < E.length → probe E c key f s = some (p, false) →
      probe (E.set p ⟨some k', v⟩) c key f s = some (p, true) := by
  intro f
  induction f with
  | zero => intro s p _ h; simp [probe] at h
  | succ f ih =>
    intro s p hp h
    have hempty := probe_empty E c key _ _ _ h
    unfold probe at h ⊢
    split at h
    · simp at h
      subst h
      rw [slot_set_self E _ hp]
      simp [(strcmp_eq_zero_iff _ _).2 hk]
    · rename_i k hs
      split at h
      · simp at h
      · rename_i hm
        have hne : s ≠ p := by
          intro e; subst e; rw [hempty] at hs; cases hs
        rw [slot_set_ne E _ hne, hs]
        simp only [hm, if_false]
        exact ih _ p hp h

theorem probe_insert_found (E : List ht_entry) (c : Nat) (key : Bytes) (e : ht_entry) (p : Nat)
    (hp : (slot E p).key = none) :
    ∀ (f s q : Nat), probe E c key f s = some (q, true) →
      probe (E.set p e) c key f s = some (q, true) := by
  intro f
  induction f with
  | zero => intro s q h; simp [probe] at h
  | succ f ih =>
    intro s q h
    unfold probe at h ⊢
    split at h
    · simp at h
    · rename_i k hs
      have hne : s ≠ p := by
        intro e; subst e; rw [hp] at hs; cases hs
      rw [slot_set_ne E _ hne, hs]
      split at h
      · rename_i hm
        simp only [hm, if_true]
        exact h
      · rename_i hm
        simp only [hm, if_false]
        exact ih _ q h

theorem probe_not_found (E : List ht_entry) (c : Nat) (key : Bytes)
    (h : ∀ i k, (slot E i).key = some k → cstr key ≠ cstr k) (f s p : Nat) (b : Bool)
    (hr : probe E c key f s = some (p, b)) : b = false := by
  cases b with
  | false => rfl
  | true =>
    obtain ⟨k, hk, e⟩ := probe_found E c key f s p hr
    exact absurd e (h p k hk)

theorem probe_none_occupied (E : List ht_entry) (c : Nat) (key : Bytes) (hc : 0 < c) :
    ∀ (f s : Nat), s < c → probe E c key f s = none →
      ∀ j, j < f → (slot E ((s + j) % c)).key ≠ none := by
  intro f
  induction f with
  | zero => intro s _ _ j hj; omega
  | succ f ih =>
    intro s hs h j hj
    unfold probe at h
    split at h
    · simp at h
    · rename_i k hk
      split at h
      · simp at h
      · cases j with
        | zero =>
          rw [Nat.add_zero, Nat.mod_eq_of_lt hs, hk]; simp
        | succ j =>
          by_cases hw : s + 1 ≥ c
          · have hs' : s + 1 = c := by omega
            simp only [hw, if_true] at h
            have := ih 0 hc h j (by omega)
            have e : (s + (j + 1)) % c = (0 + j) % c := by
              rw [show s + (j + 1) = j + c by omega, Nat.add_mod_right, Nat.zero_add]
            rw [e]; exact this
          · simp only [hw, if_false] at h
            have := ih (s + 1) (by omega) h j (by omega)
            rw [show s + (j + 1) = s + 1 + j by omega]
            exact this

theorem probe_terminates (E : List ht_entry) (c : Nat) (key : Bytes) (s i : Nat)
    (hs : s < c) (hi : i < c) (he : (slot E i).key = none) :
    ∃ r, probe E c key c s = some r := by
  cases h : probe E c key c s with
  | some r => exact ⟨r, rfl⟩
  | none =>
    exfalso
    have hocc := probe_none_occupied E c key (by omega) c s hs h
    by_cases hsi : s ≤ i
    · have := hocc (i - s) (by omega)
      rw [show s + (i - s) = i by omega, Nat.mod_eq_of_lt hi] at this
      exact this he
    · have := hocc (i + c - s) (by omega)
      rw [show s + (i + c - s) = i + c by omega, Nat.add_mod_right, Nat.mod_eq_of_lt hi] at this
      exact this he

/-! ## Counting the occupied slots -/

theorem occupied_set (E : List ht_entry) (e : ht_entry) :
    ∀ p, p < E.length →
      occupied (E.set p e) + (if (slot E p).key.isSome then 1 else 0)
        = occupied E + (if e.key.isSome then 1 else 0) := by
  induction E with
  | nil => intro p hp; simp at hp
  | cons a E ih =>
    intro p hp
    cases p with
    | zero =>
      simp only [List.set_cons_zero, occupied, List.countP_cons, slot, List.getD_cons_zero]
      omega
    | succ p =>
      have := ih p (by simpa using hp)
      simp only [List.set_cons_succ, occupied, List.countP_cons, slot, List.getD_cons_succ] at this ⊢
      omega

theorem occupied_set_same (E : List ht_entry) (e : ht_entry) (p : Nat) (hp : p < E.length)
    (h : e.key.isSome = (slot E p).key.isSome) : occupied (E.set p e) = occupied E := by
  have := occupied_set E e p hp
  rw [h] at this
  omega

theorem occupied_set_empty (E : List ht_entry) (e : ht_entry) (p : Nat) (hp : p < E.length)
    (h : (slot E p).key = none) :
    occupied (E.set p e) = occupied E + (if e.key.isSome then 1 else 0) := by
  have := occupied_set E e p hp
  rw [h] at this
  simpa using this

theorem exists_empty_of_occupied_lt (E : List ht_entry) (h : occupied E < E.length) :
    ∃ i, i < E.length ∧ (slot E i).key = none := by
  induction E with
  | nil => simp at h
  | cons a E ih =>
    cases hk : a.key with
    | none => exact ⟨0, by simp, by simp [slot, hk]⟩
    | some k =>
      have h' : occupied E < E.length := by
        simp [occupied, List.countP_cons, hk] at h
        exact h
      obtain ⟨i, hi, he⟩ := ih h'
      exact ⟨i + 1, by simpa using hi, by simpa [slot] using he⟩

/-! ## One call of `ht_set_entry` -/

theorem cstr_owned_key (pl : Option Nat) (key : Bytes) : cstr (owned_key pl key) = cstr key := by
  cases pl with
  | none => rfl
  | some n => exact cstr_strdup key

theorem stored_value_some (I it lv : Int) (v : Bytes) (h : copy_ok I it lv) :
    ∃ w, stored_value I v it lv = some w := by
  unfold stored_value
  by_cases h1 : it = I
  · simp [h1]
  · by_cases h2 : lv = 0
    · have h3 : ¬ it < 0 := by
        rcases h with h | h | h
        · exact absurd h h1
        · exact absurd h2 h
        · omega
      simp [h1, h2, h3]
    · simp [h1, h2]

theorem updated_value_some (I it lv : Int) (o v : Bytes) (h : copy_ok I it lv) :
    ∃ w, updated_value I (some o) v it lv = some w := by
  unfold updated_value
  by_cases h1 : it = I
  · simp [h1]
  · by_cases h2 : lv = 0
    · have h3 : ¬ it < 0 := by
        rcases h with h | h | h
        · exact absurd h h1
        · exact absurd h2 h
        · omega
      simp [h1, h2, h3]
    · simp [h1, h2]

/-- What a call of `ht_set_entry` that returns has done: it has stopped at a slot
`p`, and either replaced the value there or filled the empty slot. -/
theorem ht_set_entry_inv {I : Int} {E E' : List ht_entry} {c : Nat} {key v : Bytes}
    {pl pl' : Option Nat} {it lv : Int}
    (h : ht_set_entry I E c key v pl it lv = some (E', pl')) :
    ∃ p w,
      (probe E c key c (start_index c key) = some (p, true)
        ∧ updated_value I (slot E p).value v it lv = some w
        ∧ E' = E.set p ⟨(slot E p).key, some w⟩ ∧ pl' = pl)
      ∨ (probe E c key c (start_index c key) = some (p, false)
        ∧ stored_value I v it lv = some w
        ∧ E' = E.set p ⟨stored_key (owned_key pl key) it lv, some w⟩
        ∧ pl' = pl.map (· + 1)) := by
  unfold ht_set_entry at h
  cases hp : probe E c key c (start_index c key) with
  | none => simp [hp] at h
  | some r =>
    obtain ⟨p, b⟩ := r
    cases b with
    | true =>
      cases hw : updated_value I (slot E p).value v it lv with
      | none => simp [hp, hw] at h
      | some w =>
        simp [hp, hw] at h
        exact ⟨p, w, Or.inl ⟨rfl, hw, h.1.symm, h.2.symm⟩⟩
    | false =>
      cases hw : stored_value I v it lv with
      | none => simp [hp, hw] at h
      | some w =>
        simp [hp, hw] at h
        exact ⟨p, w, Or.inr ⟨rfl, rfl, h.1.symm, h.2.symm⟩⟩

theorem ht_set_entry_update {I : Int} {E : List ht_entry} {c : Nat} {key v : Bytes}
    {pl : Option Nat} {it lv : Int} {p : Nat} {w : Bytes}
    (hp : probe E c key c (start_index c key) = some (p, true))
    (hw : updated_value I (slot E p).value v it lv = some w) :
    ht_set_entry I E c key v pl it lv = some (E.set p ⟨(slot E p).key, some w⟩, pl) := by
  unfold ht_set_entry
  simp [hp, hw]

theorem ht_set_entry_insert {I : Int} {E : List ht_entry} {c : Nat} {key v : Bytes}
    {pl : Option Nat} {it lv : Int} {p : Nat} {w : Bytes}
    (hp : probe E c key c (start_index c key) = some (p, false))
    (hw : stored_value I v it lv = some w) :
    ht_set_entry I E c key v pl it lv
      = some (E.set p ⟨stored_key (owned_key pl key) it lv, some w⟩, pl.map (· + 1)) := by
  unfold ht_set_entry
  simp [hp, hw]

/-- A call of `ht_set_entry` returns when the array has an empty slot, every key
has a value and the copy returns. -/
theorem ht_set_entry_some {I : Int} {E : List ht_entry} {c : Nat} (key v : Bytes)
    (pl : Option Nat) {it lv : Int} (hlen : E.length = c) (hc : c < 18446744073709551616)
    (hocc : occupied E < c) (hv : has_values E) (hcopy : copy_ok I it lv) :
    ∃ r, ht_set_entry I E c key v pl it lv = some r := by
  have hc0 : 0 < c := by omega
  obtain ⟨i, hi, he⟩ := exists_empty_of_occupied_lt E (by omega)
  obtain ⟨⟨p, b⟩, hp⟩ := probe_terminates E c key (start_index c key) i
    (start_index_lt c key hc0 hc) (by omega) he
  cases b with
  | true =>
    obtain ⟨k, hk, _⟩ := probe_found E c key _ _ _ hp
    have hne := hv p k hk
    cases ho : (slot E p).value with
    | none => exact absurd ho hne
    | some o =>
      obtain ⟨w, hw⟩ := updated_value_some I it lv o v hcopy
      exact ⟨_, ht_set_entry_update hp (by rw [ho]; exact hw)⟩
  | false =>
    obtain ⟨w, hw⟩ := stored_value_some I it lv v hcopy
    exact ⟨_, ht_set_entry_insert hp hw⟩

/-- The array after a call of `ht_set_entry`: same size, at most one more
occupied slot, every key with a value. -/
theorem ht_set_entry_shape {I : Int} {E E' : List ht_entry} {c : Nat} {key v : Bytes}
    {pl pl' : Option Nat} {it lv : Int} (hc : 0 < c) (hc2 : c < 18446744073709551616)
    (hlen : E.length = c) (hv : has_values E)
    (h : ht_set_entry I E c key v pl it lv = some (E', pl')) :
    E'.length = c ∧ has_values E' ∧ occupied E' ≤ occupied E + 1
      ∧ (pl' = pl ∧ occupied E' = occupied E ∨ pl' = pl.map (· + 1)) := by
  obtain ⟨p, w, ⟨hp, hw, hE, hpl⟩ | ⟨hp, hw, hE, hpl⟩⟩ := ht_set_entry_inv h
  · have hpc : p < c := probe_lt E c key hc _ _ _ _ (start_index_lt c key hc hc2) hp
    obtain ⟨k, hk, _⟩ := probe_found E c key _ _ _ hp
    have hcount := occupied_set_same E ⟨(slot E p).key, some w⟩ p (by omega) rfl
    subst hE
    refine ⟨by simp [hlen], ?_, by omega, Or.inl ⟨hpl, by omega⟩⟩
    intro i k' hi
    rw [slot_set] at hi ⊢
    split
    · simp
    · rename_i hn; simp only [hn, if_false] at hi; exact hv i k' hi
  · have hpc : p < c := probe_lt E c key hc _ _ _ _ (start_index_lt c key hc hc2) hp
    have hk := probe_empty E c key _ _ _ hp
    have hcount := occupied_set_empty E ⟨stored_key (owned_key pl key) it lv, some w⟩ p
      (by omega) hk
    subst hE
    refine ⟨by simp [hlen], ?_, ?_, Or.inr hpl⟩
    · intro i k' hi
      rw [slot_set] at hi ⊢
      split
      · simp
      · rename_i hn; simp only [hn, if_false] at hi; exact hv i k' hi
    · split at hcount <;> omega

/-! ## The loop of `ht_expand` -/

theorem occupied_drop (E : List ht_entry) (i : Nat) (hi : i < E.length) :
    occupied (E.drop i)
      = (if (slot E i).key.isSome then 1 else 0) + occupied (E.drop (i + 1)) := by
  have e : slot E i = E[i] := by
    unfold slot
    rw [List.getD_eq_getElem?_getD, List.getElem?_eq_getElem hi]; rfl
  rw [List.drop_eq_getElem_cons hi, e]
  simp only [occupied, List.countP_cons]
  omega

theorem slot_replicate_null (n i : Nat) : slot (List.replicate n ht_entry.null) i = ht_entry.null := by
  unfold slot
  rw [List.getD_eq_getElem?_getD]
  by_cases h : i < n
  · rw [List.getElem?_eq_getElem (by simpa using h)]; simp
  · rw [List.getElem?_eq_none (by simpa using h)]; rfl

theorem occupied_replicate_null (n : Nat) : occupied (List.replicate n ht_entry.null) = 0 := by
  unfold occupied
  rw [List.countP_eq_zero]
  intro a ha
  rw [List.eq_of_mem_replicate ha]
  simp [ht_entry.null]

theorem has_values_replicate_null (n : Nat) : has_values (List.replicate n ht_entry.null) := by
  intro i k h
  rw [slot_replicate_null] at h
  cases h

/-- The loop of `ht_expand` runs to its end, and keeps what every step keeps. -/
theorem expand_loop_spec (I : Int) (old : List ht_entry) (c2 : Nat) (it lv : Int)
    (P : Nat → List ht_entry → Prop)
    (hnone : ∀ i e, i < old.length → (slot old i).key = none → P i e → P (i + 1) e)
    (hsome : ∀ i e k, i < old.length → (slot old i).key = some k → P i e →
      ∃ v e' pl, (slot old i).value = some v
        ∧ ht_set_entry I e c2 k v none it lv = some (e', pl) ∧ P (i + 1) e') :
    ∀ n i e, i + n = old.length → P i e →
      ∃ e', expand_loop I old c2 it lv n i e = some e' ∧ P old.length e' := by
  intro n
  induction n with
  | zero =>
    intro i e hi hP
    have : i = old.length := by omega
    subst this
    exact ⟨e, rfl, hP⟩
  | succ n ih =>
    intro i e hi hP
    unfold expand_loop
    cases hk : (slot old i).key with
    | none =>
      simp only []
      exact ih (i + 1) e (by omega) (hnone i e (by omega) hk hP)
    | some k =>
      obtain ⟨v, e', pl, hv, hs, hP'⟩ := hsome i e k (by omega) hk hP
      simp only [hv, hs]
      exact ih (i + 1) e' (by omega) hP'

theorem ht_expand_true_inv {I : Int} {t t1 : hashtable} {it lv : Int} {ok : Bool}
    (hc : t.capacity < 18446744073709551616)
    (h : ht_expand I t it lv ok = some (true, t1)) :
    ok = true ∧ 2 * t.capacity < 18446744073709551616
      ∧ ∃ e, expand_loop I t.entries (2 * t.capacity) it lv t.capacity 0
          (List.replicate (2 * t.capacity) ht_entry.null) = some e
        ∧ t1 = { entries := e, capacity := 2 * t.capacity, length := t.length } := by
  unfold ht_expand at h
  simp only [] at h
  split at h
  · simp at h
  · rename_i hlt
    have h2 : 2 * t.capacity < 18446744073709551616 := by omega
    have e2 : t.capacity * 2 % 18446744073709551616 = 2 * t.capacity := by omega
    split at h
    · simp at h
    · rename_i hok
      rw [e2] at h
      split at h
      · simp at h
      · rename_i e he
        simp at h
        exact ⟨by simpa using hok, h2, e, he, h.symm⟩

theorem ht_expand_false_inv {I : Int} {t t1 : hashtable} {it lv : Int} {ok : Bool}
    (h : ht_expand I t it lv ok = some (false, t1)) : t1 = t := by
  unfold ht_expand at h
  simp only [] at h
  split at h
  · simp at h; exact h.symm
  · split at h
    · simp at h; exact h.symm
    · split at h <;> simp at h

theorem ht_expand_eq_true {I : Int} {t : hashtable} {it lv : Int} {e : List ht_entry}
    (h2 : 2 * t.capacity < 18446744073709551616)
    (he : expand_loop I t.entries (2 * t.capacity) it lv t.capacity 0
      (List.replicate (2 * t.capacity) ht_entry.null) = some e) :
    ht_expand I t it lv true
      = some (true, { entries := e, capacity := 2 * t.capacity, length := t.length }) := by
  unfold ht_expand
  have e2 : t.capacity * 2 % 18446744073709551616 = 2 * t.capacity := by omega
  simp only [e2]
  rw [if_neg (by omega), if_neg (by simp), he]

theorem ht_expand_eq_false {I : Int} {t : hashtable} {it lv : Int} {ok : Bool}
    (h : ok = false ∨ 18446744073709551616 ≤ 2 * t.capacity)
    (hc : t.capacity < 18446744073709551616) :
    ht_expand I t it lv ok = some (false, t) := by
  unfold ht_expand
  simp only []
  by_cases h2 : t.capacity * 2 % 18446744073709551616 < t.capacity
  · rw [if_pos h2]
  · rw [if_neg h2]
    have : ok = false := by
      rcases h with h | h
      · exact h
      · omega
    rw [if_pos this]

/-! ## What holds of every table -/

theorem table_ok.cap_ge {t : hashtable} (h : table_ok t) : 1000 ≤ t.capacity := by
  obtain ⟨j, hj⟩ := h.cap
  have : 1 ≤ 2 ^ j := Nat.one_le_two_pow
  rw [hj]; omega

theorem table_ok_create : table_ok hashtable_create where
  len := List.length_replicate _ _
  cap := ⟨0, rfl⟩
  cap_lt := by show INITIAL_CAPACITY < _; unfold INITIAL_CAPACITY; omega
  occ := by
    show occupied (List.replicate INITIAL_CAPACITY ht_entry.null) ≤ 0
    rw [occupied_replicate_null]
  load := Nat.zero_le _
  vals := by
    intro i k h
    change (slot (List.replicate INITIAL_CAPACITY ht_entry.null) i).key = some k at h
    rw [slot_replicate_null] at h
    cases h

/-- The final write of `ht_set` keeps `table_ok`, when there is room for one
more entry. -/
theorem table_ok_write_inv {I : Int} {t t' : hashtable} {key v : Bytes} {it lv : Int}
    (ht : table_ok t) (hroom : t.length < t.capacity / 2)
    (h : ht_set_write I t key v it lv = some t') :
    table_ok t' ∧ t'.capacity = t.capacity ∧ t'.length ≤ t.length + 1 ∧ t.length ≤ t'.length := by
  have hc0 := ht.cap_ge
  have hocc := ht.occ
  unfold ht_set_write at h
  cases hr : ht_set_entry I t.entries t.capacity key v (some t.length) it lv with
  | none => simp [hr] at h
  | some r =>
    obtain ⟨E', pl'⟩ := r
    simp [hr] at h
    subst h
    obtain ⟨h1, h2, h3, h4⟩ := ht_set_entry_shape (by omega) ht.cap_lt ht.len ht.vals hr
    rcases h4 with ⟨h4, h5⟩ | h4
    · subst h4
      exact ⟨⟨h1, ht.cap, ht.cap_lt, by simp; omega, by simp; omega, h2⟩, rfl, by simp,
        by simp⟩
    · subst h4
      exact ⟨⟨h1, ht.cap, ht.cap_lt, by simp; omega, by simp; omega, h2⟩, rfl, by simp,
        by simp⟩

/-- The final write of `ht_set` returns, when there is room for one more entry. -/
theorem ht_set_write_some {I : Int} {t : hashtable} (key v : Bytes) {it lv : Int}
    (ht : table_ok t) (hroom : t.length < t.capacity / 2) (hcopy : copy_ok I it lv) :
    ∃ t', ht_set_write I t key v it lv = some t' := by
  have hocc := ht.occ
  obtain ⟨⟨E', pl'⟩, hr⟩ := ht_set_entry_some (I := I) key v (some t.length) ht.len ht.cap_lt
    (by omega) ht.vals hcopy
  exact ⟨_, by unfold ht_set_write; rw [hr]⟩

/-- The loop of `ht_expand` on a table that is `table_ok` runs to its end; the new
array has no more occupied slots than the old one. -/
theorem expand_loop_ok (I : Int) {t : hashtable} (it lv : Int) (ht : table_ok t)
    (h2 : 2 * t.capacity < 18446744073709551616) (hcopy : copy_ok I it lv) :
    ∃ e, expand_loop I t.entries (2 * t.capacity) it lv t.capacity 0
        (List.replicate (2 * t.capacity) ht_entry.null) = some e
      ∧ e.length = 2 * t.capacity ∧ has_values e ∧ occupied e ≤ occupied t.entries := by
  have hge := ht.cap_ge
  have key := expand_loop_spec I t.entries (2 * t.capacity) it lv
    (fun i e => e.length = 2 * t.capacity ∧ has_values e
      ∧ occupied e + occupied (t.entries.drop i) ≤ occupied t.entries)
    (by
      intro i e hi hk ⟨h1, h2, h3⟩
      refine ⟨h1, h2, ?_⟩
      rw [occupied_drop _ i hi, hk] at h3
      simpa using h3)
    (by
      intro i e k hi hk ⟨h1, hv, h3⟩
      have hvi := ht.vals i k hk
      cases hval : (slot t.entries i).value with
      | none => exact absurd hval hvi
      | some v =>
        have hocc := ht.occ
        have hload := ht.load
        obtain ⟨⟨e', pl⟩, hr⟩ := ht_set_entry_some (I := I) k v none h1 h2
          (by omega) hv hcopy
        obtain ⟨g1, g2, g3, _⟩ := ht_set_entry_shape (by omega) h2 h1 hv hr
        refine ⟨v, e', pl, rfl, hr, g1, g2, ?_⟩
        rw [occupied_drop _ i hi, hk] at h3
        simp at h3
        omega)
    t.capacity 0 (List.replicate (2 * t.capacity) ht_entry.null)
    (by rw [ht.len]; omega)
    ⟨by simp, has_values_replicate_null _, by simp [occupied_replicate_null]⟩
  obtain ⟨e, he, g1, g2, g3⟩ := key
  refine ⟨e, he, g1, g2, ?_⟩
  rw [List.drop_length] at g3
  simp [occupied] at g3
  exact g3

theorem ht_set_entry_copy_ok {I : Int} {E : List ht_entry} {c : Nat} {key v : Bytes}
    {pl : Option Nat} {it lv : Int} {r : List ht_entry × Option Nat}
    (h : ht_set_entry I E c key v pl it lv = some r) : copy_ok I it lv := by
  by_contra hn
  unfold copy_ok at hn
  push_neg at hn
  obtain ⟨h1, h2, h3⟩ := hn
  obtain ⟨E', pl'⟩ := r
  obtain ⟨p, w, ⟨_, hw, _⟩ | ⟨_, hw, _⟩⟩ := ht_set_entry_inv h
  · simp [updated_value, h1, h2, h3] at hw
  · simp [stored_value, h1, h2, h3] at hw

theorem ht_set_write_copy_ok {I : Int} {t t' : hashtable} {key v : Bytes} {it lv : Int}
    (h : ht_set_write I t key v it lv = some t') : copy_ok I it lv := by
  unfold ht_set_write at h
  cases hr : ht_set_entry I t.entries t.capacity key v (some t.length) it lv with
  | none => simp [hr] at h
  | some r => exact ht_set_entry_copy_ok hr

/-! ## One call of `ht_set` -/

/-- A call of `ht_set` that returns has either left the table as it was (when
`ht_expand` failed) or written to the table `grows_to` describes. -/
theorem ht_set_inv {I : Int} {t t' : hashtable} {key v : Bytes} {it lv : Int} {ok : Bool}
    (h : ht_set I t key (some v) it lv ok = some t') :
    (t.capacity / 2 ≤ t.length ∧ ht_expand I t it lv ok = some (false, t) ∧ t' = t)
      ∨ ∃ tg, grows_to I t it lv ok tg ∧ ht_set_write I tg key v it lv = some t' := by
  unfold ht_set at h
  simp only [] at h
  split at h
  · rename_i hge
    cases he : ht_expand I t it lv ok with
    | none => simp [he] at h
    | some r =>
      obtain ⟨b, t1⟩ := r
      cases b with
      | false =>
        simp [he] at h
        have := ht_expand_false_inv he
        subst this
        exact Or.inl ⟨hge, rfl, h.symm⟩
      | true =>
        simp [he] at h
        exact Or.inr ⟨t1, Or.inr ⟨hge, he⟩, h⟩
  · rename_i hlt
    exact Or.inr ⟨t, Or.inl ⟨by omega, rfl⟩, h⟩

theorem ht_set_of_grows {I : Int} {t tg : hashtable} (key v : Bytes) {it lv : Int} {ok : Bool}
    (hg : grows_to I t it lv ok tg) :
    ht_set I t key (some v) it lv ok = ht_set_write I tg key v it lv := by
  unfold ht_set
  simp only []
  rcases hg with ⟨h1, h2⟩ | ⟨h1, h2⟩
  · subst h2
    rw [if_neg (by omega)]
  · rw [if_pos h1, h2]

/-- The table the final write sees is `table_ok` and has room for one more
entry. -/
theorem grows_to_ok {I : Int} {t tg : hashtable} {it lv : Int} {ok : Bool} (ht : table_ok t)
    (hcopy : copy_ok I it lv) (hg : grows_to I t it lv ok tg) :
    table_ok tg ∧ tg.length < tg.capacity / 2 ∧ tg.length = t.length
      ∧ (tg.capacity = t.capacity ∨ tg.capacity = 2 * t.capacity) := by
  rcases hg with ⟨h1, h2⟩ | ⟨h1, h2⟩
  · subst h2
    exact ⟨ht, h1, rfl, Or.inl rfl⟩
  · obtain ⟨_, hc2, e, he, ht1⟩ := ht_expand_true_inv ht.cap_lt h2
    obtain ⟨e', he', g1, g2, g3⟩ := expand_loop_ok I it lv ht hc2 hcopy
    rw [he] at he'
    cases he'
    have hge := ht.cap_ge
    have hocc := ht.occ
    have hload := ht.load
    subst ht1
    refine ⟨⟨g1, ?_, hc2, by simp; omega, by simp; omega, g2⟩, by simp; omega, rfl, Or.inr rfl⟩
    obtain ⟨j, hj⟩ := ht.cap
    exact ⟨j + 1, by simp [hj, pow_succ]; ring⟩

theorem grows_to_some {I : Int} {t : hashtable} {it lv : Int} {ok : Bool} (ht : table_ok t)
    (hcopy : copy_ok I it lv) (hg : growth_ok t ok) : ∃ tg, grows_to I t it lv ok tg := by
  by_cases h : t.length < t.capacity / 2
  · exact ⟨t, Or.inl ⟨h, rfl⟩⟩
  · rcases hg with hg | ⟨hg1, hg2⟩
    · exact absurd hg h
    · obtain ⟨e, he, _⟩ := expand_loop_ok I it lv ht hg2 hcopy
      subst hg1
      exact ⟨_, Or.inr ⟨by omega, ht_expand_eq_true hg2 he⟩⟩

/-- Every call of `ht_set` that returns keeps `table_ok`. -/
theorem table_ok_ht_set {I : Int} {t t' : hashtable} {key : Bytes} {value : Option Bytes}
    {it lv : Int} {ok : Bool} (ht : table_ok t)
    (h : ht_set I t key value it lv ok = some t') : table_ok t' := by
  cases value with
  | none =>
    simp [ht_set] at h
    subst h; exact ht
  | some v =>
    rcases ht_set_inv h with ⟨_, _, h3⟩ | ⟨tg, hg, hw⟩
    · subst h3; exact ht
    · obtain ⟨g1, g2, _⟩ := grows_to_ok ht (ht_set_write_copy_ok hw) hg
      exact (table_ok_write_inv g1 g2 hw).1

theorem reachable_ok {I : Int} {t : hashtable} (h : reachable I t) : table_ok t := by
  induction h with
  | create => exact table_ok_create
  | set key value it lv ok _ hs ih => exact table_ok_ht_set ih hs

/-! ## Reading after writing -/

theorem ht_get_of_found {t : hashtable} {key : Bytes} {p : Nat}
    (h : probe t.entries t.capacity key t.capacity (start_index t.capacity key) = some (p, true)) :
    ht_get t key = some (slot t.entries p).value := by
  unfold ht_get; rw [h]

theorem ht_get_of_empty {t : hashtable} {key : Bytes} {p : Nat}
    (h : probe t.entries t.capacity key t.capacity (start_index t.capacity key) = some (p, false)) :
    ht_get t key = some none := by
  unfold ht_get; rw [h]

theorem ht_get_some_inv {t : hashtable} {key : Bytes} {o : Bytes}
    (h : ht_get t key = some (some o)) :
    ∃ p, probe t.entries t.capacity key t.capacity (start_index t.capacity key) = some (p, true)
      ∧ (slot t.entries p).value = some o := by
  unfold ht_get at h
  cases hp : probe t.entries t.capacity key t.capacity (start_index t.capacity key) with
  | none => simp [hp] at h
  | some r =>
    obtain ⟨p, b⟩ := r
    cases b with
    | true => simp [hp] at h; exact ⟨p, rfl, h⟩
    | false => simp [hp] at h

theorem ht_get_none_inv {t : hashtable} {key : Bytes} (hv : has_values t.entries)
    (h : ht_get t key = some none) :
    ∃ p, probe t.entries t.capacity key t.capacity (start_index t.capacity key)
      = some (p, false) := by
  unfold ht_get at h
  cases hp : probe t.entries t.capacity key t.capacity (start_index t.capacity key) with
  | none => simp [hp] at h
  | some r =>
    obtain ⟨p, b⟩ := r
    cases b with
    | false => exact ⟨p, rfl⟩
    | true =>
      simp [hp] at h
      obtain ⟨k, hk, _⟩ := probe_found _ _ _ _ _ _ hp
      exact absurd h (hv p k hk)

/-- On a table that is `table_ok`, `ht_get` returns. -/
theorem ht_get_some {t : hashtable} (ht : table_ok t) (key : Bytes) :
    ∃ r, ht_get t key = some r := by
  have hge := ht.cap_ge
  have hocc := ht.occ
  have hload := ht.load
  obtain ⟨i, hi, he⟩ := exists_empty_of_occupied_lt t.entries (by rw [ht.len]; omega)
  obtain ⟨⟨p, b⟩, hp⟩ := probe_terminates t.entries t.capacity key (start_index t.capacity key) i
    (start_index_lt _ key (by omega) ht.cap_lt) (by rw [← ht.len]; exact hi) he
  cases b with
  | true => exact ⟨_, ht_get_of_found hp⟩
  | false => exact ⟨_, ht_get_of_empty hp⟩

theorem stored_key_full {key : Bytes} {it lv : Int} (pl : Option Nat) (h : key_full key it lv) :
    ∃ k, stored_key (owned_key pl key) it lv = some k ∧ cstr k = cstr key := by
  unfold stored_key
  by_cases hl : lv = 0
  · rw [if_pos hl]
    exact ⟨_, rfl, by rw [cstr_strcpy, cstr_owned_key]⟩
  · have h2 : (strlen key : Int) ≤ it := by
      rcases h with h | h
      · exact absurd h hl
      · exact h
    rw [if_neg hl, if_neg (by omega)]
    refine ⟨_, rfl, ?_⟩
    rw [cstr_copy_key, cstr_owned_key]
    unfold strlen
    rw [cstr_owned_key]
    unfold strlen at h2
    omega

/-- What the final write of `ht_set` does to a table that is `table_ok`: it stops
at a slot `p` and either replaces the value there, with the length as it was, or
fills the empty slot, with the length one more. -/
theorem ht_set_write_inv {I : Int} {t t' : hashtable} {key v : Bytes} {it lv : Int}
    (ht : table_ok t) (h : ht_set_write I t key v it lv = some t') :
    ∃ p w, p < t.capacity ∧ t'.capacity = t.capacity
      ∧ ((probe t.entries t.capacity key t.capacity (start_index t.capacity key) = some (p, true)
          ∧ updated_value I (slot t.entries p).value v it lv = some w
          ∧ t'.entries = t.entries.set p ⟨(slot t.entries p).key, some w⟩
          ∧ t'.length = t.length)
        ∨ (probe t.entries t.capacity key t.capacity (start_index t.capacity key)
            = some (p, false)
          ∧ stored_value I v it lv = some w
          ∧ t'.entries = t.entries.set p ⟨stored_key (strdup key) it lv, some w⟩
          ∧ t'.length = t.length + 1)) := by
  have hge := ht.cap_ge
  unfold ht_set_write at h
  cases hr : ht_set_entry I t.entries t.capacity key v (some t.length) it lv with
  | none => simp [hr] at h
  | some r =>
    obtain ⟨E', pl'⟩ := r
    simp [hr] at h
    subst h
    obtain ⟨p, w, ⟨hp, hw, hE, hpl⟩ | ⟨hp, hw, hE, hpl⟩⟩ := ht_set_entry_inv hr
    · have hpc := probe_lt _ _ key (by omega) _ _ _ _
        (start_index_lt _ key (by omega) ht.cap_lt) hp
      exact ⟨p, w, hpc, rfl, Or.inl ⟨hp, hw, hE, by simp [hpl]⟩⟩
    · have hpc := probe_lt _ _ key (by omega) _ _ _ _
        (start_index_lt _ key (by omega) ht.cap_lt) hp
      exact ⟨p, w, hpc, rfl, Or.inr ⟨hp, hw, hE, by simp [hpl]⟩⟩

/-- After the final write of `ht_set`, `ht_get` finds the key, when the key is
stored in full; the value found is the one `updated_value` or `stored_value`
made. -/
theorem ht_get_write_self {I : Int} {t t' : hashtable} {key v : Bytes} {it lv : Int}
    (ht : table_ok t) (hk : key_full key it lv)
    (h : ht_set_write I t key v it lv = some t') :
    ∃ w, ht_get t' key = some (some w)
      ∧ ((∃ o, ht_get t key = some (some o) ∧ updated_value I (some o) v it lv = some w)
        ∨ (ht_get t key = some none ∧ stored_value I v it lv = some w)) := by
  obtain ⟨p, w, hpc, hcap, ⟨hp, hw, hE, _⟩ | ⟨hp, hw, hE, _⟩⟩ := ht_set_write_inv ht h
  · obtain ⟨k, hsk, hck⟩ := probe_found _ _ _ _ _ _ hp
    have hval := ht.vals p k hsk
    cases ho : (slot t.entries p).value with
    | none => exact absurd ho hval
    | some o =>
      refine ⟨w, ?_, Or.inl ⟨o, by rw [ht_get_of_found hp, ho], by rw [← ho]; exact hw⟩⟩
      have hp' : probe t'.entries t'.capacity key t'.capacity (start_index t'.capacity key)
          = some (p, true) := by
        rw [hcap, hE, probe_slots_congr t.entries _ _ key ?_]
        · exact hp
        · intro i
          rw [slot_set]
          split
          · rename_i hi; rw [hi.1]
          · rfl
      rw [ht_get_of_found hp', hE, slot_set_self _ _ (by rw [ht.len]; exact hpc)]
  · obtain ⟨k, hsk, hck⟩ := stored_key_full (some t.length) hk
    change stored_key (strdup key) it lv = some k at hsk
    refine ⟨w, ?_, Or.inr ⟨ht_get_of_empty hp, hw⟩⟩
    have hp' : probe t'.entries t'.capacity key t'.capacity (start_index t'.capacity key)
        = some (p, true) := by
      rw [hcap, hE, hsk]
      exact probe_insert_self _ _ key k _ hck.symm _ _ _ (by rw [ht.len]; exact hpc) hp
    rw [ht_get_of_found hp', hE, slot_set_self _ _ (by rw [ht.len]; exact hpc)]

/-- The final write of `ht_set` for one key leaves every other key that
`ht_get` found where it was, with its value. -/
theorem ht_get_write_other {I : Int} {t t' : hashtable} {key v k2 o : Bytes} {it lv : Int}
    (ht : table_ok t) (hne : cstr k2 ≠ cstr key)
    (h : ht_set_write I t key v it lv = some t') (hg : ht_get t k2 = some (some o)) :
    ht_get t' k2 = some (some o) := by
  obtain ⟨q, hq, hqv⟩ := ht_get_some_inv hg
  obtain ⟨kq, hkq, hcq⟩ := probe_found _ _ _ _ _ _ hq
  obtain ⟨p, w, hpc, hcap, ⟨hp, hw, hE, _⟩ | ⟨hp, hw, hE, _⟩⟩ := ht_set_write_inv ht h
  · obtain ⟨k, hsk, hck⟩ := probe_found _ _ _ _ _ _ hp
    have hqp : q ≠ p := by
      intro e; subst e
      rw [hkq] at hsk; cases hsk
      exact hne (hcq.trans hck.symm)
    have hq' : probe t'.entries t'.capacity k2 t'.capacity (start_index t'.capacity k2)
        = some (q, true) := by
      rw [hcap, hE, probe_slots_congr t.entries _ _ k2 ?_]
      · exact hq
      · intro i
        rw [slot_set]
        split
        · rename_i hi; rw [hi.1]
        · rfl
    rw [ht_get_of_found hq', hE, slot_set_ne _ _ hqp, hqv]
  · have hpe := probe_empty _ _ _ _ _ _ hp
    have hqp : q ≠ p := by
      intro e; subst e
      rw [hkq] at hpe; cases hpe
    have hq' : probe t'.entries t'.capacity k2 t'.capacity (start_index t'.capacity k2)
        = some (q, true) := by
      rw [hcap, hE]
      exact probe_insert_found _ _ k2 _ p hpe _ _ _ hq
    rw [ht_get_of_found hq', hE, slot_set_ne _ _ hqp, hqv]

/-- The final write of `ht_set` leaves the length as it was when `ht_get` found the
key, and adds one when `ht_get` returned `NULL`. -/
theorem ht_set_write_length {I : Int} {t t' : hashtable} {key v : Bytes} {it lv : Int}
    (ht : table_ok t) (h : ht_set_write I t key v it lv = some t') :
    (ht_get t key = some none → t'.length = t.length + 1)
      ∧ (∀ o, ht_get t key = some (some o) → t'.length = t.length) := by
  obtain ⟨p, w, hpc, hcap, ⟨hp, hw, hE, hl⟩ | ⟨hp, hw, hE, hl⟩⟩ := ht_set_write_inv ht h
  · refine ⟨fun hn => ?_, fun _ _ => hl⟩
    obtain ⟨q, hq⟩ := ht_get_none_inv ht.vals hn
    rw [hp] at hq; cases hq
  · refine ⟨fun _ => hl, fun o ho => ?_⟩
    rw [ht_get_of_empty hp] at ho; cases ho

/-! ## The value of `INT_INPUT` matters only through the comparison with it -/

theorem ht_set_entry_kind_congr {I J it it' lv : Int} (h1 : it = I ↔ it' = J)
    (h2 : it ≠ I → it = it') (h3 : lv ≠ 0 → it = it') (E : List ht_entry) (c : Nat)
    (key v : Bytes) (pl : Option Nat) :
    ht_set_entry I E c key v pl it lv = ht_set_entry J E c key v pl it' lv := by
  have hk : ∀ k, stored_key k it lv = stored_key k it' lv := by
    intro k
    by_cases hl : lv = 0
    · simp [stored_key, hl]
    · rw [h3 hl]
  have hv : ∀ v, stored_value I v it lv = stored_value J v it' lv := by
    intro v
    by_cases hi : it = I
    · simp [stored_value, hi, h1.1 hi]
    · have hi' : ¬ it' = J := fun e => hi (h1.2 e)
      simp only [stored_value, hi, hi', if_false]
      rw [h2 hi]
  have hu : ∀ o v, updated_value I o v it lv = updated_value J o v it' lv := by
    intro o v
    by_cases hi : it = I
    · simp [updated_value, hi, h1.1 hi]
    · have hi' : ¬ it' = J := fun e => hi (h1.2 e)
      simp only [updated_value, hi, hi', if_false]
      rw [h2 hi]
  unfold ht_set_entry
  simp only [hk, hv, hu]

theorem expand_loop_kind_congr {I J it it' lv : Int} (h1 : it = I ↔ it' = J)
    (h2 : it ≠ I → it = it') (h3 : lv ≠ 0 → it = it') (old : List ht_entry) (c2 : Nat) :
    ∀ n i e, expand_loop I old c2 it lv n i e = expand_loop J old c2 it' lv n i e := by
  intro n
  induction n with
  | zero => intro i e; rfl
  | succ n ih =>
    intro i e
    unfold expand_loop
    simp only [ht_set_entry_kind_congr h1 h2 h3, ih]

/-- Two calls of `ht_set` that compare alike with `INT_INPUT`, and have the same
length argument where it is read, do the same. -/
theorem ht_set_kind_congr {I J it it' lv : Int} (h1 : it = I ↔ it' = J)
    (h2 : it ≠ I → it = it') (h3 : lv ≠ 0 → it = it') (t : hashtable) (key : Bytes)
    (value : Option Bytes) (ok : Bool) :
    ht_set I t key value it lv ok = ht_set J t key value it' lv ok := by
  unfold ht_set ht_expand ht_set_write
  simp only [ht_set_entry_kind_congr h1 h2 h3, expand_loop_kind_congr h1 h2 h3]

/-- A Counter call with `lenvariable == 0` does the same for every value of
`INT_INPUT`. -/
theorem ht_set_counter_congr (I : Int) (t : hashtable) (key : Bytes) (value : Option Bytes)
    (ok : Bool) : ht_set I t key value I 0 ok = ht_set 0 t key value 0 0 ok :=
  ht_set_kind_congr (by simp) (by simp) (by simp) t key value ok

/-! ## The new table -/

theorem ht_get_create (key : Bytes) : ht_get hashtable_create key = some none := by
  have h : probe hashtable_create.entries hashtable_create.capacity key
      (999 + 1) (start_index hashtable_create.capacity key)
      = some (start_index hashtable_create.capacity key, false) := by
    have e : slot hashtable_create.entries (start_index hashtable_create.capacity key)
        = ht_entry.null := slot_replicate_null _ _
    rw [probe, e]
    rfl
  exact ht_get_of_empty h

theorem ht_set_no_growth {I : Int} {t : hashtable} (key v : Bytes) (it lv : Int) (ok : Bool)
    (h : t.length < t.capacity / 2) :
    ht_set I t key (some v) it lv ok = ht_set_write I t key v it lv :=
  ht_set_of_grows key v (Or.inl ⟨h, rfl⟩)

/-- After a call of `ht_set` that stores its key in full, whose copy returns and
whose growth, when it is needed, succeeds, `ht_get` finds the key; the value found
is the one `updated_value` or `stored_value` made on the table the call wrote to. -/
theorem ht_set_round_trip {I : Int} {t : hashtable} (ht : table_ok t) (key v : Bytes)
    {it lv : Int} {ok : Bool} (hk : key_full key it lv) (hc : copy_ok I it lv)
    (hg : growth_ok t ok) :
    ∃ tg t' w, grows_to I t it lv ok tg ∧ ht_set I t key (some v) it lv ok = some t'
      ∧ ht_get t' key = some (some w)
      ∧ ((∃ o, ht_get tg key = some (some o) ∧ updated_value I (some o) v it lv = some w)
        ∨ (ht_get tg key = some none ∧ stored_value I v it lv = some w)) := by
  obtain ⟨tg, hgr⟩ := grows_to_some (I := I) ht hc hg
  obtain ⟨g1, g2, _⟩ := grows_to_ok ht hc hgr
  obtain ⟨t', hw⟩ := ht_set_write_some (I := I) key v g1 g2 hc
  obtain ⟨w, h1, h2⟩ := ht_get_write_self g1 hk hw
  exact ⟨tg, t', w, hgr, by rw [ht_set_of_grows key v hgr]; exact hw, h1, h2⟩

/-! ## Tables whose keys are all stored in full -/

theorem probe_start_congr (E : List ht_entry) (c : Nat) {a b : Bytes} (h : cstr a = cstr b) :
    probe E c a c (start_index c a) = probe E c b c (start_index c b) := by
  rw [start_index_congr c h, probe_key_congr E c h]

/-- In an array whose keys are all findable, a probe that stops at an empty slot
means that no slot holds the key. -/
theorem findable_absent {E : List ht_entry} {c : Nat} {key : Bytes} {p : Nat}
    (hf : findable E c) (h : probe E c key c (start_index c key) = some (p, false)) :
    ∀ q k, (slot E q).key = some k → cstr key ≠ cstr k := by
  intro q k hk e
  have := hf q k hk
  rw [← probe_start_congr E c e, h] at this
  cases this

theorem findable_replicate_null (n c : Nat) : findable (List.replicate n ht_entry.null) c := by
  intro p k h
  rw [slot_replicate_null] at h
  cases h

theorem findable_update {E : List ht_entry} {c p : Nat} (w : Option Bytes)
    (hf : findable E c) : findable (E.set p ⟨(slot E p).key, w⟩) c := by
  have hkeys : ∀ i, (slot (E.set p ⟨(slot E p).key, w⟩) i).key = (slot E i).key := by
    intro i
    rw [slot_set]
    split
    · rename_i hi; rw [hi.1]
    · rfl
  intro q k hk
  rw [hkeys] at hk
  rw [probe_slots_congr E _ c k hkeys]
  exact hf q k hk

theorem findable_insert {E : List ht_entry} {c p : Nat} {key k' : Bytes} (w : Option Bytes)
    (hf : findable E c) (hp : p < E.length)
    (h : probe E c key c (start_index c key) = some (p, false)) (hk : cstr key = cstr k') :
    findable (E.set p ⟨some k', w⟩) c := by
  have hpe := probe_empty _ _ _ _ _ _ h
  intro q k hq
  rw [slot_set] at hq
  split at hq
  · rename_i hi
    have hkk : k' = k := by simpa using hq
    rw [← hkk, hi.1, ← probe_start_congr _ c hk]
    exact probe_insert_self E c key k' _ hk _ _ _ hp h
  · exact probe_insert_found E c k _ p hpe _ _ _ (hf q k hq)

theorem stored_key_zero (key : Bytes) (it : Int) (pl : Option Nat) :
    stored_key (owned_key pl key) it 0 = some (strcpy (owned_key pl key)) := by
  simp [stored_key]

/-- The final write of `ht_set` with `lenvariable == 0` keeps `table_clean`. -/
theorem table_clean_write {I : Int} {t t' : hashtable} {key v : Bytes} {it : Int}
    (ht : table_clean t) (hroom : t.length < t.capacity / 2)
    (h : ht_set_write I t key v it 0 = some t') : table_clean t' := by
  have hok := (table_ok_write_inv ht.ok hroom h).1
  obtain ⟨p, w, hpc, hcap, ⟨hp, hw, hE, hl⟩ | ⟨hp, hw, hE, hl⟩⟩ := ht_set_write_inv ht.ok h
  · refine ⟨hok, ?_, ?_⟩
    · rw [hcap, hE]; exact findable_update _ ht.find
    · rw [hE, hl, occupied_set_same t.entries ⟨(slot t.entries p).key, some w⟩ p
        (by rw [ht.ok.len]; exact hpc) rfl, ht.count]
  · have hsk : stored_key (strdup key) it 0 = some (strcpy (strdup key)) :=
      stored_key_zero key it (some 0)
    refine ⟨hok, ?_, ?_⟩
    · rw [hcap, hE, hsk]
      exact findable_insert _ ht.find (by rw [ht.ok.len]; exact hpc) hp
        (by rw [cstr_strcpy, cstr_strdup])
    · rw [hE, hl, hsk, occupied_set_empty t.entries ⟨some (strcpy (strdup key)), some w⟩ p
        (by rw [ht.ok.len]; exact hpc) (probe_empty _ _ _ _ _ _ hp), ht.count]
      rfl

theorem rehash_inv_none {I : Int} {old : List ht_entry} {c2 : Nat} {it : Int} {i : Nat}
    {e : List ht_entry} (hi : i < old.length) (hk : (slot old i).key = none)
    (h : rehash_inv I old c2 it i e) : rehash_inv I old c2 it (i + 1) e := by
  refine ⟨h.len, h.vals, h.find, ?_, ?_, ?_⟩
  · have := h.count
    rw [occupied_drop _ i hi, hk] at this
    simpa using this
  · intro q k hq
    obtain ⟨j, k', hj, h1, h2⟩ := h.keys q k hq
    exact ⟨j, k', by omega, h1, h2⟩
  · intro j k' v' hj h1 h2
    have hne : j ≠ i := by
      intro e; subst e; rw [hk] at h1; cases h1
    exact h.gets j k' v' (by omega) h1 h2

theorem rehash_inv_some {I : Int} {old : List ht_entry} {c c2 : Nat} {it : Int} {i : Nat}
    {e : List ht_entry} {k : Bytes} (hc2 : c2 < 18446744073709551616)
    (hfold : findable old c) (hvold : has_values old) (hocc : occupied old < c2)
    (hcopy : copy_ok I it 0)
    (hi : i < old.length) (hk : (slot old i).key = some k)
    (h : rehash_inv I old c2 it i e) :
    ∃ v e' pl, (slot old i).value = some v
      ∧ ht_set_entry I e c2 k v none it 0 = some (e', pl)
      ∧ rehash_inv I old c2 it (i + 1) e' := by
  have hvi := hvold i k hk
  cases hval : (slot old i).value with
  | none => exact absurd hval hvi
  | some v =>
    have hcount := h.count
    rw [occupied_drop _ i hi, hk] at hcount
    simp only [Option.isSome_some, if_true] at hcount
    have hc0 : 0 < c2 := by omega
    obtain ⟨⟨e', pl⟩, hr⟩ := ht_set_entry_some (I := I) k v none h.len hc2 (by omega) h.vals hcopy
    obtain ⟨g1, g2, _, _⟩ := ht_set_entry_shape hc0 hc2 h.len h.vals hr
    refine ⟨v, e', pl, rfl, hr, ?_⟩
    obtain ⟨p, w, ⟨hp, hw, hE, hpl⟩ | ⟨hp, hw, hE, hpl⟩⟩ := ht_set_entry_inv hr
    · exfalso
      obtain ⟨kp, hkp, hck⟩ := probe_found _ _ _ _ _ _ hp
      obtain ⟨j, k', hj, h1, h2⟩ := h.keys p kp hkp
      have e1 := hfold j k' h1
      have e2 := hfold i k hk
      rw [probe_start_congr old c (h2.trans hck.symm), e2] at e1
      simp at e1
      omega
    · have hpc : p < e.length := by
        rw [h.len]
        exact probe_lt _ _ k hc0 _ _ _ _ (start_index_lt _ k hc0 hc2) hp
      have hpe := probe_empty _ _ _ _ _ _ hp
      have hsk : stored_key (owned_key none k) it 0 = some (strcpy k) := stored_key_zero k it none
      rw [hsk] at hE
      subst hE
      refine ⟨g1, g2, ?_, ?_, ?_, ?_⟩
      · exact findable_insert _ h.find hpc hp (cstr_strcpy k).symm
      · rw [occupied_set_empty _ _ _ hpc hpe]
        simp only [Option.isSome_some, if_true]
        omega
      · intro q kq hq
        rw [slot_set] at hq
        split at hq
        · simp at hq
          subst hq
          exact ⟨i, k, by omega, hk, (cstr_strcpy k).symm⟩
        · obtain ⟨j, k', hj, h1, h2⟩ := h.keys q kq hq
          exact ⟨j, k', by omega, h1, h2⟩
      · intro j k' v' hj h1 h2
        by_cases hji : j = i
        · subst hji
          rw [hk] at h1; cases h1
          rw [hval] at h2; cases h2
          refine ⟨p, w, ?_, ?_, hw⟩
          · exact probe_insert_self _ _ k (strcpy k) _ (cstr_strcpy k).symm _ _ _ hpc hp
          · rw [slot_set_self _ _ hpc]
        · obtain ⟨q, w', hq, hqv, hsv⟩ := h.gets j k' v' (by omega) h1 h2
          obtain ⟨kq, hkq, _⟩ := probe_found _ _ _ _ _ _ hq
          have hqp : q ≠ p := by
            intro e; subst e; rw [hpe] at hkq; cases hkq
          refine ⟨q, w', ?_, ?_, hsv⟩
          · exact probe_insert_found _ _ k' _ p hpe _ _ _ hq
          · rw [slot_set_ne _ _ hqp, hqv]

/-- The loop of `ht_expand`, called with `lenvariable == 0` on a table that is
`table_clean`, runs to its end; the new array holds the keys of the old one, each
once and findable, and for each the value `stored_value` makes of the old one. -/
theorem expand_loop_clean (I : Int) {t : hashtable} (it : Int) (ht : table_clean t)
    (h2 : 2 * t.capacity < 18446744073709551616) (hcopy : copy_ok I it 0) :
    ∃ e, expand_loop I t.entries (2 * t.capacity) it 0 t.capacity 0
        (List.replicate (2 * t.capacity) ht_entry.null) = some e
      ∧ rehash_inv I t.entries (2 * t.capacity) it t.capacity e := by
  have hge := ht.ok.cap_ge
  have hocc := ht.ok.occ
  have hload := ht.ok.load
  have key := expand_loop_spec I t.entries (2 * t.capacity) it 0
    (fun i e => rehash_inv I t.entries (2 * t.capacity) it i e)
    (fun i e hi hk h => rehash_inv_none hi hk h)
    (fun i e k hi hk h => rehash_inv_some h2 ht.find ht.ok.vals (by omega) hcopy hi hk h)
    t.capacity 0 (List.replicate (2 * t.capacity) ht_entry.null)
    (by rw [ht.ok.len]; omega)
    ⟨by simp, has_values_replicate_null _, findable_replicate_null _ _,
      by simp [occupied_replicate_null],
      fun q k h => (by rw [slot_replicate_null] at h; cases h),
      fun j k' v' hj => by omega⟩
  obtain ⟨e, he, hinv⟩ := key
  rw [ht.ok.len] at hinv
  exact ⟨e, he, hinv⟩

/-! ## Integers in memory -/

/-- The table `ht_expand` returns, called with `lenvariable == 0` on a table that is
`table_clean`: it is `table_clean`, a key `ht_get` did not find is still not found,
and a key it found is found with the value `stored_value` makes of the old one. -/
theorem expand_clean {I : Int} {t tg : hashtable} {it : Int} {ok : Bool} (ht : table_clean t)
    (hcopy : copy_ok I it 0) (hh : t.capacity / 2 ≤ t.length)
    (he : ht_expand I t it 0 ok = some (true, tg)) :
    table_clean tg ∧ tg.length = t.length ∧ tg.capacity = 2 * t.capacity
      ∧ (∀ k, ht_get t k = some none → ht_get tg k = some none)
      ∧ (∀ k o, ht_get t k = some (some o) →
          ∃ w, stored_value I o it 0 = some w ∧ ht_get tg k = some (some w))
      ∧ (∀ q k, (slot tg.entries q).key = some k →
          ∃ j k', (slot t.entries j).key = some k' ∧ cstr k' = cstr k) := by
  have hge := ht.ok.cap_ge
  have hload := ht.ok.load
  obtain ⟨hok, _, _, _⟩ := grows_to_ok ht.ok hcopy (Or.inr ⟨hh, he⟩)
  obtain ⟨_, hc2, e, he1, htg⟩ := ht_expand_true_inv ht.ok.cap_lt he
  obtain ⟨e', he2, hinv⟩ := expand_loop_clean I it ht hc2 hcopy
  rw [he1] at he2
  cases he2
  subst htg
  have hcount := hinv.count
  rw [← ht.ok.len, List.drop_length] at hcount
  have hfind : findable e (2 * t.capacity) := hinv.find
  have hcnt : occupied e = t.length := by
    rw [← ht.count]; simpa [occupied] using hcount
  refine ⟨⟨hok, hfind, hcnt⟩, rfl, rfl, ?_, ?_, ?_⟩
  · intro k hk
    obtain ⟨p, hp⟩ := ht_get_none_inv ht.ok.vals hk
    have habs := findable_absent ht.find hp
    obtain ⟨r, hr⟩ := ht_get_some hok k
    cases r with
    | none => exact hr
    | some o =>
      exfalso
      obtain ⟨q, hq, _⟩ := ht_get_some_inv hr
      obtain ⟨kq, hkq, hck⟩ := probe_found _ _ _ _ _ _ hq
      obtain ⟨j, k', _, h1, h2⟩ := hinv.keys q kq hkq
      exact habs j k' h1 (hck.trans h2.symm)
  · intro k o hk
    obtain ⟨q, hq, hqv⟩ := ht_get_some_inv hk
    obtain ⟨kq, hkq, hck⟩ := probe_found _ _ _ _ _ _ hq
    have hqc : q < t.capacity := probe_lt _ _ k (by omega) _ _ _ _
      (start_index_lt _ k (by omega) ht.ok.cap_lt) hq
    obtain ⟨q', w, hq', hv', hs⟩ := hinv.gets q kq o hqc hkq hqv
    refine ⟨w, hs, ?_⟩
    have : probe e (2 * t.capacity) k (2 * t.capacity) (start_index (2 * t.capacity) k)
        = some (q', true) := by
      rw [probe_start_congr e _ hck]; exact hq'
    have hg := @ht_get_of_found ⟨e, 2 * t.capacity, t.length⟩ k q' this
    rw [hg]
    exact congrArg some hv'
  · intro q k hk
    obtain ⟨j, k', _, h1, h2⟩ := hinv.keys q k hk
    exact ⟨j, k', h1, h2⟩

/-- The table the final write of a call with `lenvariable == 0` sees, when the
table is `table_clean`: it is `table_clean`, a key `ht_get` did not find is still
not found, a key it found is still found. -/
theorem grows_clean {I : Int} {t tg : hashtable} {it : Int} {ok : Bool} (ht : table_clean t)
    (hcopy : copy_ok I it 0) (hg : grows_to I t it 0 ok tg) :
    table_clean tg
      ∧ (∀ k, ht_get t k = some none → ht_get tg k = some none)
      ∧ (∀ k o, ht_get t k = some (some o) →
          ∃ w, ht_get tg k = some (some w) ∧ (w = o ∨ stored_value I o it 0 = some w))
      ∧ (∀ q k, (slot tg.entries q).key = some k →
          ∃ j k', (slot t.entries j).key = some k' ∧ cstr k' = cstr k) := by
  rcases hg with ⟨_, h2⟩ | ⟨h1, h2⟩
  · subst h2
    exact ⟨ht, fun _ h => h, fun k o h => ⟨o, h, Or.inl rfl⟩, fun q k h => ⟨q, k, h, rfl⟩⟩
  · obtain ⟨g1, _, _, g4, g5, g6⟩ := expand_clean ht hcopy h1 h2
    refine ⟨g1, g4, fun k o h => ?_, g6⟩
    obtain ⟨w, hw, hg⟩ := g5 k o h
    exact ⟨w, hg, Or.inr hw⟩

theorem table_clean_create : table_clean hashtable_create :=
  ⟨table_ok_create, findable_replicate_null _ _, occupied_replicate_null _⟩

/-- Every call of `ht_set` with `lenvariable == 0` that returns keeps
`table_clean`. -/
theorem table_clean_ht_set {I : Int} {t t' : hashtable} {key : Bytes} {value : Option Bytes}
    {it : Int} {ok : Bool} (ht : table_clean t)
    (h : ht_set I t key value it 0 ok = some t') : table_clean t' := by
  cases value with
  | none =>
    simp [ht_set] at h
    subst h; exact ht
  | some v =>
    rcases ht_set_inv h with ⟨_, _, h3⟩ | ⟨tg, hg, hw⟩
    · subst h3; exact ht
    · have hcopy := ht_set_write_copy_ok hw
      obtain ⟨g1, g2, _⟩ := grows_to_ok ht.ok hcopy hg
      exact table_clean_write (grows_clean ht hcopy hg).1 g2 hw

theorem reachable0_clean {I : Int} {t : hashtable} (h : reachable0 I t) : table_clean t := by
  induction h with
  | create => exact table_clean_create
  | set key value it ok _ hs ih => exact table_clean_ht_set ih hs

theorem reachable0_reachable {I : Int} {t : hashtable} (h : reachable0 I t) : reachable I t := by
  induction h with
  | create => exact reachable.create
  | set key value it ok _ hs ih => exact reachable.set key value it 0 ok ih hs

/-! ## Sequences of calls -/

theorem run_cons_of_some {I : Int} {c : call} {t t1 : hashtable} (cs : List call)
    (h : ht_set I t c.key (some c.value) c.input_type c.lenvariable c.calloc_ok = some t1) :
    run I (c :: cs) t = run I cs t1 := by
  rw [run, h]

/-- A sequence of calls that stays below half load leaves the capacity as it
was, and leaves every key that `ht_get` found, and that none of the calls writes,
with its value. -/
theorem run_no_growth (I : Int) :
    ∀ (cs : List call) (t t' : hashtable), table_ok t →
      t.length + cs.length ≤ t.capacity / 2 → run I cs t = some t' →
      t'.capacity = t.capacity
        ∧ ∀ k o, ht_get t k = some (some o) → (∀ c ∈ cs, cstr c.key ≠ cstr k) →
            ht_get t' k = some (some o) := by
  intro cs
  induction cs with
  | nil =>
    intro t t' _ _ h
    simp [run] at h
    subst h
    exact ⟨rfl, fun k o h _ => h⟩
  | cons c cs ih =>
    intro t t' ht hl h
    simp only [List.length_cons] at hl
    have hroom : t.length < t.capacity / 2 := by omega
    unfold run at h
    rw [ht_set_no_growth c.key c.value c.input_type c.lenvariable c.calloc_ok hroom] at h
    cases hw : ht_set_write I t c.key c.value c.input_type c.lenvariable with
    | none => simp [hw] at h
    | some t1 =>
      simp only [hw] at h
      obtain ⟨ht1, hcap, hlen, _⟩ := table_ok_write_inv ht hroom hw
      obtain ⟨h1, h2⟩ := ih t1 t' ht1 (by rw [hcap]; omega) h
      refine ⟨by rw [h1, hcap], fun k o hk hne => ?_⟩
      apply h2 k o
      · exact ht_get_write_other ht (fun e => hne c (List.mem_cons_self _ _) e.symm) hw hk
      · intro c' hc'
        exact hne c' (List.mem_cons_of_mem _ hc')

/-- A sequence of calls with `lenvariable == 0` and pairwise different keys, none
of them in the table, whose copies return and whose growths succeed: every call
returns and adds one to the length. -/
theorem run_distinct (I : Int) :
    ∀ (cs : List call) (t : hashtable) (prev : List Bytes), reachable0 I t →
      (∀ q k, (slot t.entries q).key = some k → cstr k ∈ prev) →
      (prev ++ cs.map (fun c => cstr c.key)).Nodup →
      (∀ c ∈ cs, c.lenvariable = 0 ∧ c.calloc_ok = true ∧ copy_ok I c.input_type 0) →
      t.length + cs.length < 4611686018427387904 →
      ∃ t', run I cs t = some t' ∧ reachable0 I t' ∧ t'.length = t.length + cs.length
        ∧ ∀ q k, (slot t'.entries q).key = some k →
            cstr k ∈ prev ++ cs.map (fun c => cstr c.key) := by
  intro cs
  induction cs with
  | nil =>
    intro t prev hr hkeys _ _ _
    exact ⟨t, rfl, hr, rfl, by simpa using hkeys⟩
  | cons c cs ih =>
    intro t prev hr hkeys hnd hcs hN
    simp only [List.length_cons] at hN
    obtain ⟨hlv, hok, hcopy⟩ := hcs c (List.mem_cons_self _ _)
    have hclean := reachable0_clean hr
    have hcle := hclean.ok.load
    have hnotin : cstr c.key ∉ prev := by
      intro hmem
      simp only [List.map_cons] at hnd
      exact (List.nodup_append.1 hnd).2.2 hmem (List.mem_cons_self _ _) 
    have habs : ht_get t c.key = some none := by
      obtain ⟨r, hr'⟩ := ht_get_some hclean.ok c.key
      cases r with
      | none => exact hr'
      | some o =>
        exfalso
        obtain ⟨q, hq, _⟩ := ht_get_some_inv hr'
        obtain ⟨kq, hkq, hck⟩ := probe_found _ _ _ _ _ _ hq
        exact hnotin (hck ▸ hkeys q kq hkq)
    have hgrow : growth_ok t true := by
      by_cases hh : t.length < t.capacity / 2
      · exact Or.inl hh
      · exact Or.inr ⟨rfl, by omega⟩
    obtain ⟨tg, hg⟩ := grows_to_some (I := I) hclean.ok hcopy hgrow
    obtain ⟨g1, g2, g3, _⟩ := grows_to_ok hclean.ok hcopy hg
    obtain ⟨_, gabs, _, gkeys⟩ := grows_clean hclean hcopy hg
    obtain ⟨t1, hw⟩ := ht_set_write_some (I := I) c.key c.value g1 g2 hcopy
    have hset : ht_set I t c.key (some c.value) c.input_type 0 true = some t1 := by
      rw [ht_set_of_grows c.key c.value hg]; exact hw
    have hlen1 : t1.length = t.length + 1 := by
      rw [(ht_set_write_length g1 hw).1 (gabs _ habs), g3]
    have hr1 : reachable0 I t1 := reachable0.set c.key (some c.value) c.input_type true hr hset
    have hkeys1 : ∀ q k, (slot t1.entries q).key = some k → cstr k ∈ prev ++ [cstr c.key] := by
      intro q k hk
      have hfrom : ∀ q k, (slot tg.entries q).key = some k → cstr k ∈ prev := by
        intro q k hk
        obtain ⟨j, k', h1, h2⟩ := gkeys q k hk
        exact h2 ▸ hkeys j k' h1
      obtain ⟨p, w, _, _, ⟨hp, _, hE, _⟩ | ⟨hp, _, hE, _⟩⟩ := ht_set_write_inv g1 hw
      · rw [hE, slot_set] at hk
        split at hk
        · exact List.mem_append_left _ (hfrom p k hk)
        · exact List.mem_append_left _ (hfrom q k hk)
      · rw [hE, slot_set] at hk
        split at hk
        · have hsk : stored_key (strdup c.key) c.input_type 0 = some (strcpy (strdup c.key)) :=
            stored_key_zero c.key c.input_type (some 0)
          rw [hsk] at hk
          simp at hk
          rw [← hk, cstr_strcpy, cstr_strdup]
          simp
        · exact List.mem_append_left _ (hfrom q k hk)
    obtain ⟨t', h1, h2, h3, h4⟩ := ih t1 (prev ++ [cstr c.key]) hr1 hkeys1
      (by simpa using hnd) (fun c' hc' => hcs c' (List.mem_cons_of_mem _ hc'))
      (by rw [hlen1]; omega)
    refine ⟨t', ?_, h2, by rw [h3, hlen1]; simp; omega, ?_⟩
    · unfold run
      rw [hlv, hok, hset]
      exact h1
    · intro q k hk
      simpa using h4 q k hk

/-! ## Five hundred keys -/

theorem cstr_key_of (i : Nat) : cstr (key_of i) = key_of i := by
  simp [key_of, cstr]

theorem key_of_injective : Function.Injective key_of := by
  intro i j h
  simp only [key_of, List.cons.injEq, and_true] at h
  omega

theorem fill_length (v : Bytes) (it : Int) (n : Nat) : (fill v it n).length = n := by
  simp [fill]

theorem fill_keys (v : Bytes) (it : Int) (n : Nat) :
    (fill v it n).map (fun c => cstr c.key) = (List.range n).map key_of := by
  simp [fill, Function.comp_def, cstr_key_of]

theorem fill_nodup (v : Bytes) (it : Int) (n : Nat) :
    ((fill v it n).map (fun c => cstr c.key)).Nodup := by
  rw [fill_keys]
  exact (List.nodup_range n).map key_of_injective

theorem fill_ok (I : Int) (v : Bytes) (it : Int) (n : Nat) (h : copy_ok I it 0) :
    ∀ c ∈ fill v it n, c.lenvariable = 0 ∧ c.calloc_ok = true ∧ copy_ok I c.input_type 0 := by
  intro c hc
  simp only [fill, List.mem_map] at hc
  obtain ⟨i, _, rfl⟩ := hc
  exact ⟨rfl, rfl, h⟩

theorem fill_key_ne (v : Bytes) (it : Int) (n m : Nat) (h : n ≤ m) :
    ∀ c ∈ fill v it n, cstr c.key ≠ cstr (key_of m) := by
  intro c hc
  simp only [fill, List.mem_map, List.mem_range] at hc
  obtain ⟨i, hi, rfl⟩ := hc
  rw [cstr_key_of, cstr_key_of]
  intro e
  have := key_of_injective e
  omega

theorem slot_create (q : Nat) : slot hashtable_create.entries q = ht_entry.null :=
  slot_replicate_null _ _

/-- The table after `fill value input_type n`, for `n` up to 500: the capacity is
still 1000, the length is `n`, and the keys of later calls are not in it. -/
theorem run_fill (I : Int) (v : Bytes) (it : Int) (n : Nat) (hn : n ≤ 500)
    (hc : copy_ok I it 0) :
    ∃ t, run I (fill v it n) hashtable_create = some t ∧ reachable0 I t ∧ t.length = n
      ∧ t.capacity = 1000 ∧ ∀ m, n ≤ m → ht_get t (key_of m) = some none := by
  obtain ⟨t, h1, h2, h3, h4⟩ := run_distinct I (fill v it n) hashtable_create []
    reachable0.create
    (fun q k h => by rw [slot_create] at h; cases h)
    (by simpa using fill_nodup v it n) (fill_ok I v it n hc)
    (by rw [fill_length]; show 0 + n < _; omega)
  have hcap := (run_no_growth I (fill v it n) hashtable_create t table_ok_create
    (by rw [fill_length]; show 0 + n ≤ 1000 / 2; omega) h1).1
  refine ⟨t, h1, h2, by rw [h3, fill_length]; exact Nat.zero_add n, hcap, ?_⟩
  intro m hm
  obtain ⟨r, hr⟩ := ht_get_some (reachable0_clean h2).ok (key_of m)
  cases r with
  | none => exact hr
  | some o =>
    exfalso
    obtain ⟨q, hq, _⟩ := ht_get_some_inv hr
    obtain ⟨kq, hkq, hck⟩ := probe_found _ _ _ _ _ _ hq
    have hmem := h4 q kq hkq
    simp only [List.nil_append, List.mem_map] at hmem
    obtain ⟨c, hc1, hc2⟩ := hmem
    exact fill_key_ne v it n m hm c hc1 (hc2.trans hck.symm)

/-- The value of the first key after `fill value input_type n`, for `n` from 1 to
500: what `stored_value` made of `value`. -/
theorem run_fill_first (I : Int) (v : Bytes) (it : Int) (n : Nat) (hn0 : 0 < n) (hn : n ≤ 500)
    (hc : copy_ok I it 0) (t : hashtable)
    (h : run I (fill v it n) hashtable_create = some t) :
    ∃ o, stored_value I v it 0 = some o ∧ ht_get t (key_of 0) = some (some o) := by
  obtain ⟨m, rfl⟩ : ∃ m, n = m + 1 := ⟨n - 1, by omega⟩
  have hfill : fill v it (m + 1)
      = ⟨key_of 0, v, it, 0, true⟩
        :: (List.range m).map (fun i => ⟨key_of (i + 1), v, it, 0, true⟩) := by
    simp [fill, List.range_succ_eq_map, Function.comp_def]
  rw [hfill] at h
  have h0 : hashtable_create.length < hashtable_create.capacity / 2 := by decide
  obtain ⟨t1, hw⟩ := ht_set_write_some (I := I) (key_of 0) v table_ok_create h0 hc
  have hset : ht_set I hashtable_create (key_of 0) (some v) it 0 true = some t1 := by
    rw [ht_set_no_growth (key_of 0) v it 0 true h0]; exact hw
  rw [run_cons_of_some (c := ⟨key_of 0, v, it, 0, true⟩) _ hset] at h
  obtain ⟨ht1, hcap, hlen, _⟩ := table_ok_write_inv table_ok_create h0 hw
  obtain ⟨w, hg, hcase⟩ := ht_get_write_self table_ok_create (Or.inl rfl) hw
  have hsv : stored_value I v it 0 = some w := by
    rcases hcase with ⟨o, ho, _⟩ | ⟨_, hs⟩
    · rw [ht_get_create] at ho; cases ho
    · exact hs
  refine ⟨w, hsv, ?_⟩
  have hcap1 : t1.capacity = 1000 := hcap
  have hlen1 : t1.length ≤ 1 := hlen
  refine (run_no_growth I _ t1 t ht1 (by simp; omega) h).2 (key_of 0) w hg ?_
  intro c hc'
  simp only [List.mem_map, List.mem_range] at hc'
  obtain ⟨i, _, rfl⟩ := hc'
  rw [cstr_key_of, cstr_key_of]
  intro e
  have := key_of_injective e
  omega

/-- One run of the loop of `ht_next` that starts with as many steps as slots are
left: it returns false when no slot from the cursor on is occupied, and otherwise
true with the cursor behind the first occupied slot and the key and value of that
slot. -/
theorem ht_next_loop_spec (t : hashtable) :
    ∀ (fuel : Nat) (it : hti), it._index + fuel = t.capacity →
      ((List.range' it._index fuel).filter (fun i => (slot t.entries i).key.isSome) = [] →
        (ht_next_loop t fuel it).1 = false)
      ∧ ∀ i rest,
        (List.range' it._index fuel).filter (fun i => (slot t.entries i).key.isSome)
            = i :: rest →
          ht_next_loop t fuel it
              = (true, ⟨i + 1, (slot t.entries i).key, (slot t.entries i).value⟩)
            ∧ (List.range' (i + 1) (t.capacity - (i + 1))).filter
                (fun i => (slot t.entries i).key.isSome) = rest
            ∧ i + 1 ≤ t.capacity := by
  intro fuel
  induction fuel with
  | zero =>
    intro it _
    exact ⟨fun _ => rfl, fun i rest h => by simp at h⟩
  | succ f ih =>
    intro it hit
    have hlt : it._index < t.capacity := by omega
    rw [List.range'_succ, List.filter_cons]
    unfold ht_next_loop
    simp only [hlt, if_true]
    cases hk : (slot t.entries it._index).key with
    | none =>
      simp only [Option.isSome_none, ne_eq, not_true_eq_false, if_false, Bool.false_eq_true]
      exact ih { it with _index := it._index + 1 } (by simp; omega)
    | some k =>
      simp only [Option.isSome_some, ne_eq, if_true]
      refine ⟨fun h => by simp at h, fun i rest h => ?_⟩
      simp only [List.cons.injEq] at h
      obtain ⟨h1, h2⟩ := h
      subst h1
      refine ⟨by simp [hk], ?_, by omega⟩
      rw [show t.capacity - (it._index + 1) = f by omega]
      exact h2

theorem ht_next_nth_spec (t : hashtable) :
    ∀ (l : List Nat) (it : hti), it._index ≤ t.capacity →
      (List.range' it._index (t.capacity - it._index)).filter
          (fun i => (slot t.entries i).key.isSome) = l →
      (List.range l.length).map (fun n => ht_next_nth t n it)
          = l.map (fun i => (true, ⟨i + 1, (slot t.entries i).key, (slot t.entries i).value⟩))
        ∧ (ht_next_nth t l.length it).1 = false := by
  intro l
  induction l with
  | nil =>
    intro it hit hl
    refine ⟨rfl, ?_⟩
    exact (ht_next_loop_spec t _ it (by omega)).1 hl
  | cons i rest ih =>
    intro it hit hl
    obtain ⟨h1, h2, h3⟩ := (ht_next_loop_spec t _ it (by omega)).2 i rest hl
    have hn : ht_next t it
        = (true, ⟨i + 1, (slot t.entries i).key, (slot t.entries i).value⟩) := h1
    obtain ⟨g1, g2⟩ := ih ⟨i + 1, (slot t.entries i).key, (slot t.entries i).value⟩ h3 h2
    constructor
    · rw [List.length_cons, List.range_succ_eq_map, List.map_cons, List.map_map, List.map_cons]
      congr 1
      have e : ((fun n => ht_next_nth t n it) ∘ Nat.succ)
          = fun n => ht_next_nth t n
              ⟨i + 1, (slot t.entries i).key, (slot t.entries i).value⟩ := by
        funext n
        simp [ht_next_nth, hn]
      rw [e]
      exact g1
    · rw [List.length_cons]
      show (ht_next_nth t rest.length (ht_next t it).2).1 = false
      rw [hn]
      exact g2

/-! ## Keys that no slot holds -/

theorem cstr_length_le (s : Bytes) : (cstr s).length ≤ s.length := by
  induction s with
  | nil => simp [cstr]
  | cons a p ih =>
    unfold cstr
    split
    · simp
    · simp only [List.length_cons]; omega

/-- When no slot holds the key, `ht_get` returns `NULL`. -/
theorem ht_get_none_of_no_match {t : hashtable} {key : Bytes} (ht : table_ok t)
    (h : ∀ q k, (slot t.entries q).key = some k → cstr key ≠ cstr k) :
    ht_get t key = some none := by
  obtain ⟨r, hr⟩ := ht_get_some ht key
  cases r with
  | none => exact hr
  | some o =>
    exfalso
    obtain ⟨q, hq, _⟩ := ht_get_some_inv hr
    obtain ⟨kq, hkq, hck⟩ := probe_found _ _ _ _ _ _ hq
    exact h q kq hkq hck

/-- When no slot holds the key and the final write of `ht_set` stores a key that is
not equal to it (or `NULL`), no slot holds the key afterwards. -/
theorem no_match_write {I : Int} {t t' : hashtable} {key v : Bytes} {it lv : Int}
    (ht : table_ok t) (hw : ht_set_write I t key v it lv = some t')
    (h : ∀ q k, (slot t.entries q).key = some k → cstr key ≠ cstr k)
    (hs : ∀ k, stored_key (strdup key) it lv = some k → cstr key ≠ cstr k) :
    ∀ q k, (slot t'.entries q).key = some k → cstr key ≠ cstr k := by
  obtain ⟨p, w, _, _, ⟨hp, _, _, _⟩ | ⟨_, _, hE, _⟩⟩ := ht_set_write_inv ht hw
  · obtain ⟨kq, hkq, hck⟩ := probe_found _ _ _ _ _ _ hp
    exact absurd hck (h p kq hkq)
  · intro q k hk
    rw [hE, slot_set] at hk
    split at hk
    · exact hs k hk
    · exact h q k hk

/-- On a new table, two calls of `ht_set` for a key that they do not store in full
leave the key where `ht_get` does not find it. -/
theorem ht_get_create_not_full {I : Int} (key v1 v2 : Bytes) {it lv : Int}
    (hc : copy_ok I it lv)
    (hs : ∀ k, stored_key (strdup key) it lv = some k → cstr key ≠ cstr k) :
    (ht_set I hashtable_create key (some v1) it lv true).bind
        (fun t1 => (ht_set I t1 key (some v2) it lv true).bind (fun t2 => ht_get t2 key))
      = some none := by
  have h0 : hashtable_create.length < hashtable_create.capacity / 2 := by decide
  obtain ⟨t1, hw1⟩ := ht_set_write_some (I := I) key v1 table_ok_create h0 hc
  obtain ⟨ht1, hcap1, hlen1, _⟩ := table_ok_write_inv table_ok_create h0 hw1
  have hcap1' : t1.capacity = 1000 := hcap1
  have hlen1' : t1.length ≤ 1 := hlen1
  have hroom : t1.length < t1.capacity / 2 := by omega
  obtain ⟨t2, hw2⟩ := ht_set_write_some (I := I) key v2 ht1 hroom hc
  obtain ⟨ht2, _, _, _⟩ := table_ok_write_inv ht1 hroom hw2
  have n0 : ∀ q k, (slot hashtable_create.entries q).key = some k → cstr key ≠ cstr k :=
    fun q k h => by rw [slot_create] at h; cases h
  have n1 := no_match_write table_ok_create hw1 n0 hs
  have n2 := no_match_write ht1 hw2 n1 hs
  rw [ht_set_no_growth key v1 it lv true h0, hw1, Option.some_bind,
    ht_set_no_growth key v2 it lv true hroom, hw2, Option.some_bind]
  exact ht_get_none_of_no_match ht2 n2

/-- With `lenvariable != 0` and the length argument `n`, a key of `n + 1` bytes is not
stored in full. -/
theorem stored_key_short (n : Int) (k : Bytes) :
    stored_key (strdup (List.replicate (n.toNat + 1) 97)) n 1 = some k →
      cstr (List.replicate (n.toNat + 1) 97) ≠ cstr k := by
  intro h e
  unfold stored_key at h
  rw [if_neg (by decide)] at h
  split at h
  · cases h
  · simp only [Option.some.injEq] at h
    have h1 : (cstr k).length ≤ n.toNat := by
      have := cstr_length_le k
      rw [← h] at this ⊢
      simpa using this
    have h2 : cstr (List.replicate (n.toNat + 1) 97) = List.replicate (n.toNat + 1) 97 :=
      cstr_of_ne_zero _ (fun b hb => by rw [List.eq_of_mem_replicate hb]; decide)
    rw [h2] at e
    rw [← e] at h1
    simp at h1

/-! ## The occupied slots -/

theorem occupied_slots_length_aux (E : List ht_entry) :
    ((List.range E.length).filter (fun i => (slot E i).key.isSome)).length = occupied E := by
  induction E with
  | nil => rfl
  | cons a E ih =>
    rw [List.length_cons, List.range_succ_eq_map, List.filter_cons, List.filter_map]
    have e : ((fun i => (slot (a :: E) i).key.isSome) ∘ Nat.succ)
        = fun i => (slot E i).key.isSome := by
      funext i; simp [slot]
    rw [e]
    simp only [occupied, List.countP_cons]
    have h0 : (slot (a :: E) 0) = a := by simp [slot]
    rw [h0]
    split
    · rename_i h
      simp only [List.length_cons, List.length_map, h, if_true]
      rw [ih]; rfl
    · rename_i h
      simp only [List.length_map, h]
      rw [ih]; simp [occupied]

/-- In a table whose array has `capacity` slots, `occupied_slots` lists as many
slots as `occupied` counts. -/
theorem occupied_slots_length (t : hashtable) (h : t.entries.length = t.capacity) :
    (occupied_slots t).length = occupied t.entries := by
  unfold occupied_slots
  rw [← h]
  exact occupied_slots_length_aux t.entries

/-! ## The hash -/

theorem hash_loop_eq_foldl (key : Bytes) (h : ∀ b ∈ key, b ≠ 0 ∧ b < 256) :
    ∀ hash, hash_loop key hash
      = key.foldl (fun h b => ((h ^^^ b) * 1099511628211) % 18446744073709551616) hash := by
  induction key with
  | nil => intro hash; rfl
  | cons b p ih =>
    intro hash
    obtain ⟨h0, h1⟩ := h b (List.mem_cons_self _ _)
    have hp : ∀ x ∈ p, x ≠ 0 ∧ x < 256 := fun x hx => h x (List.mem_cons_of_mem _ hx)
    rw [hash_loop, if_neg h0, Nat.mod_eq_of_lt h1, ih hp]
    rfl

/-! ## The iterator, once it is exhausted -/

/-- When the loop of `ht_next` ends with false, the cursor is at the end of the
array, and the key and value of the iterator are as they were. -/
theorem ht_next_loop_false (t : hashtable) :
    ∀ (fuel : Nat) (it : hti), t.capacity ≤ it._index + fuel →
      (ht_next_loop t fuel it).1 = false →
      t.capacity ≤ (ht_next_loop t fuel it).2._index
        ∧ (ht_next_loop t fuel it).2.key = it.key
        ∧ (ht_next_loop t fuel it).2.value = it.value := by
  intro fuel
  induction fuel with
  | zero =>
    intro it h _
    exact ⟨by simpa [ht_next_loop] using h, rfl, rfl⟩
  | succ f ih =>
    intro it h hf
    unfold ht_next_loop at hf ⊢
    by_cases hlt : it._index < t.capacity
    · simp only [hlt, if_true] at hf ⊢
      cases hk : (slot t.entries it._index).key with
      | some k => simp [hk] at hf
      | none =>
        simp only [hk, ne_eq, not_true_eq_false, if_false] at hf ⊢
        exact ih { it with _index := it._index + 1 } (by simp; omega) hf
    · rw [if_neg hlt]
      exact ⟨Nat.le_of_not_lt hlt, rfl, rfl⟩

/-- The loop of `ht_next` never moves the cursor beyond the end of the array. -/
theorem ht_next_loop_index_le (t : hashtable) :
    ∀ (fuel : Nat) (it : hti), it._index ≤ t.capacity →
      (ht_next_loop t fuel it).2._index ≤ t.capacity := by
  intro fuel
  induction fuel with
  | zero => intro it h; exact h
  | succ f ih =>
    intro it h
    unfold ht_next_loop
    by_cases hlt : it._index < t.capacity
    · simp only [hlt, if_true]
      cases hk : (slot t.entries it._index).key with
      | some k =>
        simp only [ne_eq, not_false_eq_true, if_true, reduceCtorEq]
        omega
      | none =>
        simp only [ne_eq, not_true_eq_false, if_false]
        exact ih { it with _index := it._index + 1 } (by simp; omega)
    · rw [if_neg hlt]
      exact h

/-- On an iterator whose cursor is at the end of the array, `ht_next` returns false
and leaves the iterator as it is. -/
theorem ht_next_exhausted (t : hashtable) (it : hti) (h : t.capacity ≤ it._index) :
    ht_next t it = (false, it) := by
  unfold ht_next
  rw [Nat.sub_eq_zero_of_le h]
  rfl

theorem ht_next_nth_exhausted (t : hashtable) (it : hti) (h : t.capacity ≤ it._index) :
    ∀ m, ht_next_nth t m it = (false, it) := by
  intro m
  induction m with
  | zero => exact ht_next_exhausted t it h
  | succ m ih =>
    show ht_next_nth t m (ht_next t it).2 = (false, it)
    rw [ht_next_exhausted t it h]
    exact ih

theorem ht_next_false (t : hashtable) (it : hti) (h : (ht_next t it).1 = false) :
    ht_next t it = (false, (ht_next t it).2) ∧ t.capacity ≤ (ht_next t it).2._index := by
  refine ⟨Prod.ext h rfl, ?_⟩
  unfold ht_next at h ⊢
  exact (ht_next_loop_false t _ it (by omega) h).1

/-- Once a call of `ht_next` in a row of calls has returned false, every later call
of the row returns false with the same iterator. -/
theorem ht_next_nth_false (t : hashtable) :
    ∀ (n : Nat) (it : hti), (ht_next_nth t n it).1 = false →
      ∀ m, n ≤ m → ht_next_nth t m it = (false, (ht_next_nth t n it).2) := by
  intro n
  induction n with
  | zero =>
    intro it h m _
    have h' : (ht_next t it).1 = false := h
    obtain ⟨h1, h2⟩ := ht_next_false t it h'
    cases m with
    | zero => exact h1
    | succ m =>
      show ht_next_nth t m (ht_next t it).2 = (false, (ht_next t it).2)
      exact ht_next_nth_exhausted t _ h2 m
  | succ n ih =>
    intro it h m hm
    obtain ⟨m', rfl⟩ : ∃ m', m = m' + 1 := ⟨m - 1, by omega⟩
    exact ih (ht_next t it).2 h m' (by omega)

theorem ht_next_nth_index_le (t : hashtable) :
    ∀ (n : Nat) (it : hti), it._index ≤ t.capacity →
      (ht_next_nth t n it).2._index ≤ t.capacity := by
  intro n
  induction n with
  | zero => intro it h; exact ht_next_loop_index_le t _ it h
  | succ n ih =>
    intro it h
    exact ih (ht_next t it).2 (ht_next_loop_index_le t _ it h)

/-! ## The slots a probe reads -/

theorem probe_visits_length_le (E : List ht_entry) (c : Nat) (key : Bytes) :
    ∀ (f s : Nat), (probe_visits E c key f s).length ≤ f := by
  intro f
  induction f with
  | zero => intro s; simp [probe_visits]
  | succ f ih =>
    intro s
    unfold probe_visits
    cases hk : (slot E s).key with
    | none => simp
    | some k =>
      by_cases hm : strcmp key k = 0
      · simp [hm]
      · simp only [hm, if_false, List.length_cons]
        exact Nat.succ_le_succ (ih _)

theorem probe_visits_lt (E : List ht_entry) (c : Nat) (key : Bytes) (hc : 0 < c) :
    ∀ (f s : Nat), s < c → ∀ i ∈ probe_visits E c key f s, i < c := by
  intro f
  induction f with
  | zero => intro s _ i hi; simp [probe_visits] at hi
  | succ f ih =>
    intro s hs i hi
    unfold probe_visits at hi
    rcases List.mem_cons.1 hi with rfl | hi
    · exact hs
    · cases hk : (slot E s).key with
      | none => rw [hk] at hi; simp at hi
      | some k =>
        rw [hk] at hi
        by_cases hm : strcmp key k = 0
        · simp [hm] at hi
        · simp only [hm, if_false] at hi
          refine ih _ ?_ i hi
          split <;> omega

/-- The slot read in step `j` of a probe that starts at `s` is `(s + j) % capacity`:
the probe goes up by one and from `capacity - 1` to `0`. -/
theorem probe_visits_get (E : List ht_entry) (c : Nat) (key : Bytes) :
    ∀ (f s j : Nat), s < c → j < (probe_visits E c key f s).length →
      (probe_visits E c key f s)[j]? = some ((s + j) % c) := by
  intro f
  induction f with
  | zero => intro s j _ hj; simp [probe_visits] at hj
  | succ f ih =>
    intro s j hs hj
    unfold probe_visits at hj ⊢
    cases j with
    | zero => simp [Nat.mod_eq_of_lt hs]
    | succ j =>
      cases hk : (slot E s).key with
      | none => rw [hk] at hj; simp at hj
      | some k =>
        rw [hk] at hj
        by_cases hm : strcmp key k = 0
        · simp [hm] at hj
        · simp only [hm, if_false, List.length_cons, Nat.add_lt_add_iff_right] at hj
          simp only [hm, if_false, List.getElem?_cons_succ]
          by_cases hw : s + 1 ≥ c
          · have hsc : s + 1 = c := by omega
            rw [if_pos hw] at hj ⊢
            rw [ih 0 j (by omega) hj]
            rw [show s + (j + 1) = c + j by omega, Nat.zero_add, Nat.add_mod_left]
          · rw [if_neg hw] at hj ⊢
            rw [ih (s + 1) j (by omega) hj]
            rw [show s + 1 + j = s + (j + 1) by omega]

/-- The slot a probe returns is the last one it read. -/
theorem probe_visits_last (E : List ht_entry) (c : Nat) (key : Bytes) :
    ∀ (f s p : Nat) (b : Bool), probe E c key f s = some (p, b) →
      (probe_visits E c key f s).getLast? = some p := by
  intro f
  induction f with
  | zero => intro s p b h; simp [probe] at h
  | succ f ih =>
    intro s p b h
    unfold probe at h
    unfold probe_visits
    cases hk : (slot E s).key with
    | none =>
      rw [hk] at h
      simp only [Option.some.injEq, Prod.mk.injEq] at h
      simp [h.1]
    | some k =>
      rw [hk] at h
      by_cases hm : strcmp key k = 0
      · simp only [hm, if_true, Option.some.injEq, Prod.mk.injEq] at h
        simp [hm, h.1]
      · simp only [hm, if_false] at h ⊢
        have h2 := ih _ p b h
        rw [List.getLast?_cons, h2]
        rfl

theorem reachable_has_empty (I : Int) (t : hashtable) (h : reachable I t) :
    ∃ i, i < t.capacity ∧ (slot t.entries i).key = none := by
  have hok := reachable_ok h
  have hc := hok.cap_ge
  have := exists_empty_of_occupied_lt t.entries (by
    rw [hok.len]
    have h1 := hok.occ
    have h2 := hok.load
    omega)
  rw [hok.len] at this
  exact this

/-! ## The key a new slot gets -/

theorem stored_key_whole (key : Bytes) (it : Int) :
    stored_key (strdup key) it 0 = some (cstr key ++ [0]) := by
  simp only [stored_key, if_true, strcpy, cstr_strdup]

theorem ht_set_table_a : ht_set 0 hashtable_create [97] (some [5, 0, 0, 0]) 0 0 true = some table_a := by
  decide!

/-- C2 fails on the code for a key of 24 bytes. On a new table `ht_get` does not find
the key, so the first Counter call `ht_set(key_24, &five, INT_INPUT, 0)` takes the
insert path: it requests `strlen(key) = 24` bytes for the key (line 177) and `strcpy`
writes 25 bytes there (line 178), the key and its terminator. The 24 bytes inside
the buffer hold no zero byte: the terminator of the stored key lies outside its
buffer. This for every `INT_INPUT`. -/
theorem C2_key_buffer_too_small (INT_INPUT : Int) :
    ht_get hashtable_create key_24 = some none
      ∧ strlen key_24 = 24
      ∧ key_malloc_size (strdup key_24) INT_INPUT 0 = 24
      ∧ key_write_size (strdup key_24) INT_INPUT 0 = 25
      ∧ stored_key (strdup key_24) INT_INPUT 0 = some (key_24 ++ [0])
      ∧ (0 : Nat) ∉ (key_24 ++ [0]).take 24
      ∧ (ht_set INT_INPUT hashtable_create key_24 (some [5, 0, 0, 0]) INT_INPUT 0 true).map
          (fun t1 => ((slot t1.entries (start_index 1000 key_24)).key, ht_length t1))
        = some (some (key_24 ++ [0]), 1) := by
  refine ⟨ht_get_create _, by decide, ?_, ?_, ?_, by decide, ?_⟩
  · simp only [key_malloc_size, if_true]
    decide
  · simp only [key_write_size, if_true]
    decide
  · rw [stored_key_whole]
    decide
  · rw [ht_set_counter_congr]
    decide!

/-- C4 fails on the code: after the 500 calls `fill [1, 1, 1, 1, 1, 1] 5 500` on a
new table (a table at half load), the call `ht_set(key_of 500, value, 2, 0)` grows
the table, and the key `key_of 0`, which is not the key written and which `ht_get`
found before the call, is found after it with a different value: `ht_expand` has
copied every value anew with the length argument of the call that triggered it.
This for every `INT_INPUT`. -/
theorem C4_growth_changes_values (INT_INPUT : Int) :
    ∃ t t' o w, run INT_INPUT (fill [1, 1, 1, 1, 1, 1] 5 500) hashtable_create = some t
      ∧ reachable INT_INPUT t ∧ t.capacity / 2 ≤ t.length
      ∧ ht_set INT_INPUT t (key_of 500) (some [1, 1, 1, 1, 1, 1]) 2 0 true = some t'
      ∧ t'.capacity = 2 * t.capacity
      ∧ cstr (key_of 0) ≠ cstr (key_of 500)
      ∧ ht_get t (key_of 0) = some (some o) ∧ ht_get t' (key_of 0) = some (some w)
      ∧ cstr w ≠ cstr o := by
  have hc5 : copy_ok INT_INPUT 5 0 := Or.inr (Or.inr (by decide))
  have hc2 : copy_ok INT_INPUT 2 0 := Or.inr (Or.inr (by decide))
  obtain ⟨t, h1, h2, h3, h4, _⟩ := run_fill INT_INPUT [1, 1, 1, 1, 1, 1] 5 500 (le_refl _) hc5
  obtain ⟨o, ho, hgo⟩ := run_fill_first INT_INPUT [1, 1, 1, 1, 1, 1] 5 500 (by decide)
    (le_refl _) hc5 t h1
  have hclean := reachable0_clean h2
  have hhalf : t.capacity / 2 ≤ t.length := by rw [h3, h4]
  obtain ⟨tg, hg⟩ := grows_to_some (I := INT_INPUT) hclean.ok hc2
    (Or.inr ⟨rfl, by rw [h4]; decide⟩ : growth_ok t true)
  have hexp : ht_expand INT_INPUT t 2 0 true = some (true, tg) := by
    rcases hg with ⟨hlt, _⟩ | ⟨_, he⟩
    · omega
    · exact he
  obtain ⟨g1, g2, _, _⟩ := grows_to_ok hclean.ok hc2 hg
  obtain ⟨_, _, gcap, _, gval, _⟩ := expand_clean hclean hc2 hhalf hexp
  obtain ⟨w, hw, hgw⟩ := gval (key_of 0) o hgo
  obtain ⟨t', hset⟩ := ht_set_write_some (I := INT_INPUT) (key_of 500) [1, 1, 1, 1, 1, 1] g1 g2 hc2
  have hne : cstr (key_of 0) ≠ cstr (key_of 500) := by
    rw [cstr_key_of, cstr_key_of]
    intro e
    have := key_of_injective e
    omega
  have hgw' := ht_get_write_other g1 hne hset hgw
  have hcap' := (table_ok_write_inv g1 g2 hset).2.1
  refine ⟨t, t', o, w, h1, reachable0_reachable h2, hhalf,
    by rw [ht_set_of_grows _ _ hg]; exact hset, by rw [hcap', gcap], hne, hgo, hgw', ?_⟩
  by_cases e5 : (5 : Int) = INT_INPUT
  · subst e5
    simp [stored_value] at ho hw
    subst ho
    subst hw
    decide
  · by_cases e2 : (2 : Int) = INT_INPUT
    · subst e2
      simp [stored_value] at ho hw
      subst ho
      subst hw
      decide
    · simp [stored_value, e5, e2] at ho hw
      subst ho
      subst hw
      decide

/-- C6: on a table that is not changed meanwhile, with `N` occupied slots, the calls
of `ht_next` in a row on a new iterator return true `N` times, call number `n` with
the cursor just behind the `n`-th occupied slot (in increasing order of the slot
index) and the key and value of that slot, and the next call returns false. `N` is
the length of `occupied_slots`, which is the number of slots with a key that is not
`NULL` when the array has `capacity` slots. -/
theorem C6_iteration (t : hashtable) :
    (List.range (occupied_slots t).length).map (fun n => ht_next_nth t n ht_iterator)
        = (occupied_slots t).map
            (fun i => (true, ⟨i + 1, (slot t.entries i).key, (slot t.entries i).value⟩))
      ∧ (ht_next_nth t (occupied_slots t).length ht_iterator).1 = false
      ∧ (t.entries.length = t.capacity → (occupied_slots t).length = occupied t.entries) := by
  have h := ht_next_nth_spec t (occupied_slots t) ht_iterator (Nat.zero_le _)
    (by unfold occupied_slots; rw [List.range_eq_range']; rfl)
  exact ⟨h.1, h.2, occupied_slots_length t⟩

/-- C8 fails on the code: the table `hashtable_create` returns has capacity 1000,
which is not a power of two, and for the key `"a"` the start of the probe,
`hash & (capacity - 1)`, is slot 132 while `hash mod capacity` is 996. -/
theorem C8_capacity_not_power_of_two :
    hashtable_create.capacity = 1000
      ∧ (¬ ∃ k : Nat, hashtable_create.capacity = 2 ^ k)
      ∧ start_index hashtable_create.capacity [97] = 132
      ∧ hash_key [97] % hashtable_create.capacity = 996 := by
  refine ⟨rfl, ?_, by decide!, by decide!⟩
  rintro ⟨k, hk⟩
  change 1000 = 2 ^ k at hk
  rcases Nat.lt_or_ge k 10 with h | h
  · interval_cases k <;> omega
  · have : 2 ^ 10 ≤ 2 ^ k := Nat.pow_le_pow_right (by omega) h
    omega

/-- C9: in every table that calls of `ht_set` lead to from `hashtable_create`,
whether `ht_expand` succeeded or failed in them, `length <= capacity / 2`, and so
`length < capacity`. -/
theorem C9_load_factor (INT_INPUT : Int) (t : hashtable) (h : reachable INT_INPUT t) :
    t.length ≤ t.capacity / 2 ∧ t.length < t.capacity := by
  have ht := reachable_ok h
  have := ht.cap_ge
  have := ht.load
  omega

/-- C9 on the table after `ht_set("a", &five, 0, 0)` on a new table, with
`INT_INPUT` taken to be `0`. -/
theorem C9_load_factor_witness :
    reachable 0 table_a ∧ table_a.length = 1 ∧ table_a.capacity = 1000
      ∧ table_a.length ≤ table_a.capacity / 2 ∧ table_a.length < table_a.capacity :=
  have hr : reachable 0 table_a := reachable.set _ _ _ _ _ reachable.create ht_set_table_a
  ⟨hr, by decide!, by decide!, C9_load_factor 0 table_a hr⟩

/-- C10 fails on the code: on a new table the call `ht_set("a", "x", -1, 1)`
returns with `ht_length` 1 and no occupied slot (`malloc` of the key fails for the
negative length and the key of the slot stays `NULL`, after the length has been
counted up); this for every `INT_INPUT`. -/
theorem C10_length_not_occupied (INT_INPUT : Int) :
    ∃ t, ht_set INT_INPUT hashtable_create [97] (some [120]) (-1) 1 true = some t
      ∧ ht_length t = 1 ∧ occupied t.entries = 0 := by
  have hc : copy_ok INT_INPUT (-1) 1 := Or.inr (Or.inl (by decide))
  have h0 : hashtable_create.length < hashtable_create.capacity / 2 := by decide
  obtain ⟨t, hw⟩ := ht_set_write_some (I := INT_INPUT) [97] [120] table_ok_create h0 hc
  refine ⟨t, by rw [ht_set_no_growth [97] [120] (-1) 1 true h0]; exact hw, ?_, ?_⟩
  · exact (ht_set_write_length table_ok_create hw).1 (ht_get_create _)
  · obtain ⟨p, w, hpc, _, ⟨hp, _, _, _⟩ | ⟨hp, _, hE, _⟩⟩ := ht_set_write_inv table_ok_create hw
    · have := ht_get_of_found hp
      rw [ht_get_create, slot_create] at this
      obtain ⟨k, hk, _⟩ := probe_found _ _ _ _ _ _ hp
      rw [slot_create] at hk
      cases hk
    · have hsk : stored_key (strdup [97]) (-1) 1 = none := by simp [stored_key]
      have hcount := occupied_set_empty hashtable_create.entries
        ⟨stored_key (strdup [97]) (-1) 1, some w⟩ p
        (by rw [table_ok_create.len]; exact hpc) (probe_empty _ _ _ _ _ _ hp)
      have hz : occupied hashtable_create.entries = 0 := occupied_replicate_null _
      rw [hE, hcount, hsk, hz]
      rfl

/-! ## The claims, continued -/

/-- C11: on every table with `length >= capacity / 2` (the capacity a `size_t`), when
`ht_expand` fails, because doubling the capacity overflows `size_t` or because
`calloc` fails, it returns false with the table as it was, and the call of `ht_set`
that triggered it (with any value, `NULL` or not) returns with the table as it was:
same capacity, same length, same slots. -/
theorem C11_growth_failure (INT_INPUT : Int) (t : hashtable) (key : Bytes)
    (value : Option Bytes) (input_type lenvariable : Int) (calloc_ok : Bool)
    (hc : t.capacity < 18446744073709551616) (hh : t.capacity / 2 ≤ t.length)
    (hf : calloc_ok = false ∨ 18446744073709551616 ≤ 2 * t.capacity) :
    ht_expand INT_INPUT t input_type lenvariable calloc_ok = some (false, t)
      ∧ ht_set INT_INPUT t key value input_type lenvariable calloc_ok = some t := by
  have he : ht_expand INT_INPUT t input_type lenvariable calloc_ok = some (false, t) :=
    ht_expand_eq_false hf hc
  refine ⟨he, ?_⟩
  cases value with
  | none => rfl
  | some v =>
    unfold ht_set
    simp only []
    rw [if_pos hh, he]

/-- C11 on a table of two slots at half load, `calloc` failing, with `INT_INPUT` taken
to be `0`. -/
theorem C11_growth_failure_witness :
    table_half.capacity < 18446744073709551616 ∧ table_half.capacity / 2 ≤ table_half.length
      ∧ ht_expand 0 table_half 1 1 false = some (false, table_half)
      ∧ ht_set 0 table_half [98] (some [121]) 1 1 false = some table_half :=
  ⟨by decide, by decide,
    C11_growth_failure 0 table_half [98] (some [121]) 1 1 false (by decide) (by decide) (Or.inl rfl)⟩

/-- C12: for every key without zero bytes, `hash_key` is 64-bit FNV-1a, the left fold
of `h -> ((h xor byte) * 1099511628211) mod 2^64` over the bytes of the key from
14695981039346656037; the empty key hashes to the offset basis and `"a"` to
`0xaf63dc4c8601ec8c`. -/
theorem C12_hash_is_fnv1a (key : Bytes) (h : ∀ b ∈ key, b ≠ 0 ∧ b < 256) :
    hash_key key = fnv1a key
      ∧ hash_key [] = 14695981039346656037
      ∧ hash_key [97] = 0xaf63dc4c8601ec8c := by
  exact ⟨hash_loop_eq_foldl key h _, rfl, by decide⟩

/-- C12 for the key `"apple"`. -/
theorem C12_hash_is_fnv1a_witness :
    (∀ b ∈ [97, 112, 112, 108, 101], b ≠ 0 ∧ b < 256)
      ∧ hash_key [97, 112, 112, 108, 101] = fnv1a [97, 112, 112, 108, 101]
      ∧ hash_key [] = 14695981039346656037
      ∧ hash_key [97] = 0xaf63dc4c8601ec8c :=
  ⟨by decide, C12_hash_is_fnv1a [97, 112, 112, 108, 101] (by decide)⟩

/-- C13: on a table that is not changed meanwhile, once a call of `ht_next` in a row of
calls on an iterator has returned false, every later call returns false and leaves
the iterator (cursor, key, value) as that call left it; and the cursor of an
iterator that started as a new one never exceeds the capacity. -/
theorem C13_exhaustion (t : hashtable) (it : hti) (n m : Nat)
    (h : (ht_next_nth t n it).1 = false) (hnm : n ≤ m) :
    ht_next_nth t m it = (false, (ht_next_nth t n it).2)
      ∧ ∀ j, (ht_next_nth t j ht_iterator).2._index ≤ t.capacity := by
  exact ⟨ht_next_nth_false t n it h m hnm,
    fun j => ht_next_nth_index_le t j ht_iterator (Nat.zero_le _)⟩

/-- C13 on the table of two slots with the one key `"a"`: the second call of
`ht_next` returns false, and so does the fourth, with the same iterator. -/
theorem C13_exhaustion_witness :
    (ht_next_nth table_half 0 ht_iterator).1 = true
      ∧ (ht_next_nth table_half 1 ht_iterator).1 = false
      ∧ 1 ≤ 3
      ∧ ht_next_nth table_half 3 ht_iterator
          = (false, (ht_next_nth table_half 1 ht_iterator).2)
      ∧ ∀ j, (ht_next_nth table_half j ht_iterator).2._index ≤ table_half.capacity :=
  ⟨by decide, by decide, by decide,
    C13_exhaustion table_half ht_iterator 1 3 (by decide) (by decide)⟩

/-- C16 fails on the code for a Bytes call with `lenvariable == 0` on a key that is in
the table, when the length argument is greater than `strlen(value)`. Take the call
`ht_set("a", "x", n, 0)` twice on a new table, for `n = 100` or `n = 101` (one of the
two differs from `INT_INPUT`, which makes the call a Bytes call). The first call does
not find the key and takes the insert path, which requests `n` bytes for the value
(line 207) and writes `n` (line 208). After it `ht_get` finds `"a"`, so the second
call takes the update path: it requests `strlen("x") = 1` byte for the new value
(line 143) and `strncpy` writes `n` bytes there (line 147). The value of `n` bytes
that the claim describes, and that the second call writes, does not fit the buffer
of one byte. This for every `INT_INPUT`. -/
theorem C16_update_buffer_too_small (INT_INPUT : Int) :
    ∃ n : Int, (n = 100 ∨ n = 101) ∧ n ≠ INT_INPUT
      ∧ ht_get hashtable_create [97] = some none
      ∧ value_malloc_size INT_INPUT [120] n 0 = n
      ∧ (ht_set INT_INPUT hashtable_create [97] (some [120]) n 0 true).bind
          (fun t1 => (ht_get t1 [97]).map (fun r => r.isSome)) = some true
      ∧ update_malloc_size [120] = 1
      ∧ update_write_size [120] n 0 = n
      ∧ (ht_set INT_INPUT hashtable_create [97] (some [120]) n 0 true).bind
          (fun t1 => (ht_set INT_INPUT t1 [97] (some [120]) n 0 true).bind
            (fun t2 => (ht_get t2 [97]).map (fun r => r.map List.length)))
        = some (some n.toNat) := by
  by_cases h100 : (100 : Int) = INT_INPUT
  · subst h100
    exact ⟨101, Or.inr rfl, by decide, ht_get_create _, by decide, by decide!, by decide,
      by decide, by decide!⟩
  · have e : ∀ t k v ok, ht_set INT_INPUT t k v 100 0 ok = ht_set 0 t k v 100 0 ok :=
      fun t k v ok => ht_set_kind_congr (by constructor <;> intro h' <;> simp_all)
        (by simp) (by simp) t k v ok
    refine ⟨100, Or.inl rfl, h100, ht_get_create _, ?_, ?_, by decide, by decide, ?_⟩
    · simp only [value_malloc_size, if_neg h100, if_true]
    · simp only [e]
      decide!
    · simp only [e]
      decide!

/-- C17 fails on the code for the Counter calls `(key_24, 5)`, `(key_24, 3)` with
`lenvariable == 0` on a new table. The abstract counter map has the sum 8 for the key
and one key. In the code the first call does not find the key and takes the insert
path, and each such call requests `strlen(key) = 24` bytes for the key (line 177)
while `strcpy` writes 25 (line 178): the terminator of the stored key lies outside
its buffer. This for every `INT_INPUT`. -/
theorem C17_refinement_fails_on_long_key (INT_INPUT : Int) :
    counter_map_get [(key_24, 5), (key_24, 3)] key_24 = some 8
      ∧ counter_map_length [(key_24, 5), (key_24, 3)] = 1
      ∧ counter_calls INT_INPUT [(key_24, 5), (key_24, 3)]
          = [⟨key_24, store_int 5, INT_INPUT, 0, true⟩, ⟨key_24, store_int 3, INT_INPUT, 0, true⟩]
      ∧ ht_get hashtable_create key_24 = some none
      ∧ ∀ c ∈ counter_calls INT_INPUT [(key_24, 5), (key_24, 3)],
          key_malloc_size (strdup c.key) c.input_type c.lenvariable = 24
            ∧ key_write_size (strdup c.key) c.input_type c.lenvariable = 25 := by
  refine ⟨by decide, by decide, rfl, ht_get_create _, ?_⟩
  intro c hc
  simp only [counter_calls, List.map_cons, List.map_nil, List.mem_cons, List.mem_singleton,
    List.not_mem_nil, or_false] at hc
  rcases hc with rfl | rfl
  · simp only [key_malloc_size, key_write_size, if_true]
    decide
  · simp only [key_malloc_size, key_write_size, if_true]
    decide

/-- C18 fails on the code for a Bytes call with `lenvariable == 0` that updates a key
with a length argument greater than `strlen(value)`. After `ht_set("a", "x", 1, 0)` and
`ht_set("b", "hello", 5, 0)` on a new table, the table has two keys (below half load)
and `ht_get` finds both, whatever `INT_INPUT` is. The call `ht_set("a", "x", n, 0)`, for
`n = 100` or `n = 101` (one of the two differs from `INT_INPUT`, which makes the call a
Bytes call), then takes the update path: it requests `strlen("x") = 1` byte for the new
value (line 143) and `strncpy` writes `n` bytes there (line 147), `n - 1` of them
outside the buffer, over what the heap holds behind it, the buffers of the key `"b"`
among it. -/
theorem C18_update_writes_past_buffer (INT_INPUT : Int) :
    ∃ n : Int, (n = 100 ∨ n = 101) ∧ n ≠ INT_INPUT
      ∧ update_write_size [120] n 0 - update_malloc_size [120] = n - 1
      ∧ (ht_set INT_INPUT hashtable_create [97] (some [120]) 1 0 true).bind
          (fun t1 => (ht_set INT_INPUT t1 [98] (some [104, 101, 108, 108, 111]) 5 0 true).map
            (fun t2 => (ht_length t2, decide (t2.length < t2.capacity / 2),
              (ht_get t2 [97]).map (fun r => r.isSome),
              (ht_get t2 [98]).map (fun r => r.isSome))))
        = some (2, true, some true, some true) := by
  have hn : ∃ n : Int, (n = 100 ∨ n = 101) ∧ n ≠ INT_INPUT
      ∧ update_write_size [120] n 0 - update_malloc_size [120] = n - 1 := by
    by_cases h100 : (100 : Int) = INT_INPUT
    · subst h100
      exact ⟨101, Or.inr rfl, by decide, by decide⟩
    · exact ⟨100, Or.inl rfl, h100, by decide⟩
  obtain ⟨n, hn1, hn2, hn3⟩ := hn
  refine ⟨n, hn1, hn2, hn3, ?_⟩
  by_cases h1 : (1 : Int) = INT_INPUT
  · subst h1
    decide!
  · by_cases h5 : (5 : Int) = INT_INPUT
    · subst h5
      decide!
    · have e1 : ∀ t k v ok, ht_set INT_INPUT t k v 1 0 ok = ht_set 0 t k v 1 0 ok :=
        fun t k v ok => ht_set_kind_congr (by constructor <;> intro h' <;> simp_all)
          (by simp) (by simp) t k v ok
      have e5 : ∀ t k v ok, ht_set INT_INPUT t k v 5 0 ok = ht_set 0 t k v 5 0 ok :=
        fun t k v ok => ht_set_kind_congr (by constructor <;> intro h' <;> simp_all)
          (by simp) (by simp) t k v ok
      simp only [e1, e5]
      decide!

/-- C19: on every table with an empty slot (the capacity a `size_t`), for every key,
the probe loop that `ht_get` and `ht_set_entry` share returns a slot within
`capacity` steps: it reads at most `capacity` slots, the slot read in step `j` is
`(start + j) % capacity` (up by one, from `capacity - 1` on to `0`), the last one
read is the one returned, and `ht_get` returns. Every table reached from
`hashtable_create` by calls of `ht_set` has an empty slot. -/
theorem C19_probe_termination (t : hashtable) (key : Bytes) (i : Nat)
    (hc : t.capacity < 18446744073709551616) (hi : i < t.capacity)
    (he : (slot t.entries i).key = none) :
    (∃ p b, probe t.entries t.capacity key t.capacity (start_index t.capacity key) = some (p, b)
        ∧ (probe_visits t.entries t.capacity key t.capacity
            (start_index t.capacity key)).getLast? = some p)
      ∧ (probe_visits t.entries t.capacity key t.capacity
          (start_index t.capacity key)).length ≤ t.capacity
      ∧ (∀ j, j < (probe_visits t.entries t.capacity key t.capacity
            (start_index t.capacity key)).length →
          (probe_visits t.entries t.capacity key t.capacity (start_index t.capacity key))[j]?
            = some ((start_index t.capacity key + j) % t.capacity))
      ∧ (∃ r, ht_get t key = some r)
      ∧ ∀ (INT_INPUT : Int) (t0 : hashtable), reachable INT_INPUT t0 →
          t0.capacity < 18446744073709551616
            ∧ ∃ i0, i0 < t0.capacity ∧ (slot t0.entries i0).key = none := by
  have hs := start_index_lt t.capacity key (by omega) hc
  obtain ⟨⟨p, b⟩, hp⟩ := probe_terminates t.entries t.capacity key _ i hs hi he
  refine ⟨⟨p, b, hp, probe_visits_last _ _ _ _ _ p b hp⟩, probe_visits_length_le _ _ _ _ _,
    fun j hj => probe_visits_get _ _ _ _ _ j hs hj, ?_,
    fun I t0 h0 => ⟨(reachable_ok h0).cap_lt, reachable_has_empty I t0 h0⟩⟩
  unfold ht_get
  rw [hp]
  cases b <;> simp

/-- C19 on the table of two slots with the key `"a"` in slot 0: the probe for `"b"`
returns. -/
theorem C19_probe_termination_witness :
    table_half.capacity < 18446744073709551616 ∧ 1 < table_half.capacity
      ∧ (slot table_half.entries 1).key = none
      ∧ (∃ r, ht_get table_half [98] = some r) :=
  ⟨by decide, by decide, by decide,
    (C19_probe_termination table_half [98] 1 (by decide) (by decide) (by decide)).2.2.2.1⟩

/-- C20: for every capacity from 1 on (a `size_t`), whether a power of two or not, and
every key, the start index `hash_key(key) & (capacity - 1)` is below the capacity,
every slot the probe loop of `ht_get` and `ht_set_entry` reads from there is below
the capacity, and so is the slot it returns; the capacities of the tables that
calls of `ht_set` lead to, `1000 * 2^k`, are among these, and their arrays have
`capacity` slots. -/
theorem C20_indices_in_bounds (entries : List ht_entry) (capacity : Nat) (key : Bytes)
    (fuel : Nat) (h1 : 1 ≤ capacity) (h2 : capacity < 18446744073709551616) :
    start_index capacity key < capacity
      ∧ (∀ i ∈ probe_visits entries capacity key fuel (start_index capacity key), i < capacity)
      ∧ (∀ p b, probe entries capacity key fuel (start_index capacity key) = some (p, b) →
          p < capacity)
      ∧ ∀ (INT_INPUT : Int) (t : hashtable), reachable INT_INPUT t →
          1 ≤ t.capacity ∧ t.capacity < 18446744073709551616
            ∧ t.entries.length = t.capacity ∧ ∃ k, t.capacity = 1000 * 2 ^ k := by
  have hs := start_index_lt capacity key (by omega) h2
  refine ⟨hs, probe_visits_lt entries capacity key (by omega) fuel _ hs,
    fun p b h => probe_lt entries capacity key (by omega) fuel _ p b hs h, fun I t h => ?_⟩
  have hok := reachable_ok h
  have := hok.cap_ge
  exact ⟨by omega, hok.cap_lt, hok.len, hok.cap⟩

/-- C20 for the capacity 1000 and the key `"a"`, whose probe starts at slot 132. -/
theorem C20_indices_in_bounds_witness :
    1 ≤ 1000 ∧ 1000 < 18446744073709551616
      ∧ start_index 1000 [97] = 132 ∧ start_index 1000 [97] < 1000 :=
  ⟨by decide, by decide, by decide,
    (C20_indices_in_bounds [] 1000 [97] 1000 (by decide) (by decide)).1⟩

end HashTable
